import Mathlib

/-!
Verification development for `dbpreferences/tools/data_eval.py`.

The source file evaluates a Python expression string restricted to data
literals (constants, dicts, lists, tuples, algebraic negative numbers) plus
the whitelisted constructors `datetime.datetime` and `datetime.timedelta`.
It delegates parsing to the host interpreter's `compiler.parse(source, "eval")`
and then walks the resulting AST with the `SafeEval` visitor class.

The embedding below models:
- the runtime values (`Value`) that evaluation can produce;
- the compiler-module AST shapes (`Node`) that the `SafeEval` visitor
  dispatches on (dispatch is by class name; classes without a `visitXxx`
  method fall through to `SafeEval.unsupported`);
- the `SafeEval` visitor itself, translated clause by clause from the source;
- the error taxonomy: `DataEvalError` / `EvalSyntaxError` / `UnsafeSourceError`
  from the source, plus `hostError` for raw Python exceptions (TypeError,
  AttributeError, ValueError, OverflowError) that escape the walker because
  the source has no handler for them;
- the host front end (tokenizer and expression parser for the literal
  fragment the source relies on) and the whitelisted datetime constructors,
  which are not part of the repository's own code.
-/

/-- Names of the two whitelisted callables reachable through
`ALLOWED_CALLABLES` in the source. -/
inductive CName where
  | datetime
  | timedelta
deriving DecidableEq, Repr

/-- A constant held by a compiler-module `Const` node: the host parser yields
nonnegative numeric literals (a leading minus becomes a `UnarySub` node) and
string literals. Floats are represented exactly as scaled decimals:
`cfloat m e` denotes `m / 10^e`. -/
inductive ConstVal where
  | cint (n : Nat)
  | cfloat (m : Nat) (e : Nat)
  | cstr (s : String)
deriving DecidableEq, Repr

/-- Runtime values producible by `SafeEval`. Mirrors the Python values the
source can return: `None`, booleans, ints, floats (as exact scaled decimals:
`float m e` denotes `m / 10^e`), strings, lists, tuples, dicts (as ordered
association lists), `datetime.datetime`, `datetime.timedelta`, and the bare
callable objects that `visitGetattr` returns. -/
inductive Value where
  | none
  | bool (b : Bool)
  | int (n : Int)
  | float (m : Int) (e : Nat)
  | str (s : String)
  | list (xs : List Value)
  | tuple (xs : List Value)
  | dict (ps : List (Value × Value))
  | datetime (year month day hour minute second microsecond : Nat)
  | timedelta (days : Int) (seconds : Nat) (microseconds : Nat)
  | callable (c : CName)

/-- Compiler-module AST nodes. One constructor per node class that has a
`visitXxx` method in `SafeEval`, plus the node classes appearing in the
claims' inputs (`Add`, `Sub`, `Subscript`), plus `other` covering every
remaining node class: the visitor dispatches on the class NAME via
`getattr(self, "visit" + node_type, self.unsupported)`, so all classes
without a method share the `unsupported` behaviour. -/
inductive Node where
  | expression (child : Node)
  | const (v : ConstVal)
  | name (s : String)
  | unarySub (child : Node)
  | dict (items : List (Node × Node))
  | tuple (nodes : List Node)
  | list (nodes : List Node)
  | getattr (expr : Node) (attrname : String)
  | callFunc (callee : Node) (args : List Node)
  | add (l r : Node)
  | sub (l r : Node)
  | subscript (expr : Node) (subs : List Node)
  | other (className : String)

/-- Errors that can leave `data_eval`. The first three model the source's
error class hierarchy (`DataEvalError` and its subclasses `EvalSyntaxError`
and `UnsafeSourceError`); `hostError exc msg` models a raw Python exception
of class `exc` escaping unwrapped (the source installs no handler around
`visitUnarySub`'s attribute access and negation, nor around the constructor
call in `visitCallFunc`). -/
inductive Err where
  | dataEvalError (msg : String)
  | evalSyntaxError (msg : String)
  | unsafeSource (error : String) (descr : String)
  | hostError (exc : String) (msg : String)
deriving DecidableEq, Repr

/-- Whether an escaped error is an instance of the source's `DataEvalError`
class hierarchy (its base class or one of the two subclasses). -/
def Err.isDataEvalError : Err → Bool
  | .dataEvalError _ => true
  | .evalSyntaxError _ => true
  | .unsafeSource _ _ => true
  | .hostError _ _ => false

/-- The possible run-time types of the `source` argument of `data_eval`:
a text string, an already-parsed `dict` (modelled by its entry list), or any
other Python object (e.g. the integer `1`), carrying a type description. -/
inductive Source where
  | str (s : String)
  | dict (d : List (Value × Value))
  | intSource (n : Int)
  | other (typeName : String)

/-- `NAME_MAP` from the source: lower-cased bare identifiers that evaluate
to constants. -/
def NAME_MAP : List (String × Value) :=
  [("none", Value.none), ("true", Value.bool true), ("false", Value.bool false)]

/-- `ALLOWED_CALLABLES` from the source: callable name to module name. -/
def ALLOWED_CALLABLES : List (String × String) :=
  [("datetime", "datetime"), ("timedelta", "datetime")]

/-- ASCII lower-casing of one character, as Python `str.lower` acts on the
identifiers reaching `visitName`. -/
def lowerChar (c : Char) : Char :=
  if 65 ≤ c.toNat ∧ c.toNat ≤ 90 then Char.ofNat (c.toNat + 32) else c

/-- Python `str.lower` on an identifier. -/
def strLower (s : String) : String := String.mk (s.data.map lowerChar)

/-- Value of a `Const` node, as a `Value` (`visitConst` returns `node.value`
unchanged). -/
def constToValue : ConstVal → Value
  | .cint n => .int n
  | .cfloat m e => .float m e
  | .cstr s => .str s

/-- Reading `node.value` from an arbitrary node, as `visitUnarySub` does by
calling `visitConst` directly on its child: only `Const` nodes carry a
`value` attribute, every other node class raises `AttributeError`. -/
def constValueOf : Node → Except Err ConstVal
  | .const v => .ok v
  | _ => .error (.hostError "AttributeError" "node has no attribute value")

/-- The host's unary minus applied to a constant (`return - number` in
`visitUnarySub`): negates ints and floats, raises `TypeError` on strings. -/
def pyNeg : ConstVal → Except Err Value
  | .cint n => .ok (.int (-(n : Int)))
  | .cfloat m e => .ok (.float (-(m : Int)) e)
  | .cstr _ => .error (.hostError "TypeError" "bad operand type for unary -")

/-- Structural equality test used when modelling Python `dict` insertion. -/
def veq : Value → Value → Bool
  | .none, .none => true
  | .bool a, .bool b => a == b
  | .int a, .int b => a == b
  | .float a b, .float c d => a == c && b == d
  | .str a, .str b => a == b
  | .list xs, .list ys => veqList xs ys
  | .tuple xs, .tuple ys => veqList xs ys
  | .dict ps, .dict qs => veqPairs ps qs
  | .datetime a b c d e f g, .datetime a' b' c' d' e' f' g' =>
      a == a' && b == b' && c == c' && d == d' && e == e' && f == f' && g == g'
  | .timedelta a b c, .timedelta a' b' c' => a == a' && b == b' && c == c'
  | .callable a, .callable b => a == b
  | _, _ => false
where
  /-- Elementwise equality of value lists. -/
  veqList : List Value → List Value → Bool
    | [], [] => true
    | x :: xs, y :: ys => veq x y && veqList xs ys
    | _, _ => false
  /-- Elementwise equality of pair lists. -/
  veqPairs : List (Value × Value) → List (Value × Value) → Bool
    | [], [] => true
    | (k, v) :: ps, (k', v') :: qs => veq k k' && veq v v' && veqPairs ps qs
    | _, _ => false

/-- One insertion step of Python `dict` construction: an existing key keeps
its position and gets the new value, a fresh key is appended. -/
def dictInsert : List (Value × Value) → Value × Value → List (Value × Value)
  | [], kv => [kv]
  | (k, v) :: rest, (k', v') =>
      if veq k k' then (k, v') :: rest else (k, v) :: dictInsert rest (k', v')

/-- Python `dict(pairs)`: left-to-right insertion with overwrite, as built by
`visitDict`'s `dict([...])`. -/
def mkDict (ps : List (Value × Value)) : List (Value × Value) :=
  ps.foldl dictInsert []

/-- Modelled from the spec: whether a year is a leap year in the proleptic
Gregorian calendar used by the host `datetime` module ("conventional
civil-calendar constructor", spec section 4.3; the module itself is outside
the repository). -/
def isLeapYear (y : Nat) : Bool :=
  y % 4 == 0 && (y % 100 != 0 || y % 400 == 0)

/-- Modelled from the spec: days in a civil-calendar month. -/
def daysInMonth (y m : Nat) : Nat :=
  if m == 2 then (if isLeapYear y then 29 else 28)
  else if m == 4 || m == 6 || m == 9 || m == 11 then 30
  else 31

/-- Modelled from the spec: argument validity for the `datetime.datetime`
constructor (spec section 4.3: "positional numeric arguments per the
conventional civil-calendar constructor"); the host raises `ValueError`
outside these ranges. -/
def validDatetime (y mo d h mi s us : Int) : Bool :=
  1 ≤ y && y ≤ 9999 && 1 ≤ mo && mo ≤ 12 && 1 ≤ d &&
    (d ≤ (daysInMonth y.toNat mo.toNat : Int)) &&
    0 ≤ h && h ≤ 23 && 0 ≤ mi && mi ≤ 59 && 0 ≤ s && s ≤ 59 &&
    0 ≤ us && us ≤ 999999

/-- An argument value as the host integer the datetime constructors expect:
only int values qualify, anything else raises `TypeError`. -/
def asPyInt : Value → Option Int
  | .int n => some n
  | _ => Option.none

/-- Modelled from the spec: the whitelisted `datetime.datetime` constructor
(spec section 4.3). Takes 3 to 7 positional integer arguments
`year, month, day[, hour[, minute[, second[, microsecond]]]]`; rejects
non-integers with `TypeError`, wrong arity with `TypeError`, and
out-of-range components with `ValueError`. The module is host code absent
from `src/`. -/
def pyDatetimeCtor (args : List Value) : Except Err Value :=
  match args.mapM asPyInt with
  | Option.none => .error (.hostError "TypeError" "an integer is required")
  | some ns =>
    match ns with
    | [y, mo, d] => mk y mo d 0 0 0 0
    | [y, mo, d, h] => mk y mo d h 0 0 0
    | [y, mo, d, h, mi] => mk y mo d h mi 0 0
    | [y, mo, d, h, mi, s] => mk y mo d h mi s 0
    | [y, mo, d, h, mi, s, us] => mk y mo d h mi s us
    | _ => .error (.hostError "TypeError" "invalid number of arguments")
where
  /-- Range-checks the components and builds the value. -/
  mk (y mo d h mi s us : Int) : Except Err Value :=
    if validDatetime y mo d h mi s us then
      .ok (.datetime y.toNat mo.toNat d.toNat h.toNat mi.toNat s.toNat us.toNat)
    else .error (.hostError "ValueError" "argument out of range")

/-- Modelled from the spec: the whitelisted `datetime.timedelta` constructor
(spec section 4.3: "elapsed-duration constructor"), restricted to integer
arguments. Takes up to 7 positional arguments `days, seconds, microseconds,
milliseconds, minutes, hours, weeks` (each defaulting to 0), normalizes to
`(days, seconds, microseconds)` with `0 <= seconds < 86400` and
`0 <= microseconds < 1000000`, and raises `OverflowError` when the
normalized day count leaves `|days| <= 999999999`. The module is host code
absent from `src/`. -/
def pyTimedeltaCtor (args : List Value) : Except Err Value :=
  match args.mapM asPyInt with
  | Option.none => .error (.hostError "TypeError" "unsupported type for timedelta")
  | some ns =>
    if ns.length ≤ 7 then
      let get := fun i => (ns.getD i 0)
      let total : Int :=
        ((get 6 * 7 + get 0) * 86400 + get 5 * 3600 + get 4 * 60 + get 1)
            * 1000000 + get 3 * 1000 + get 2
      let d := total.fdiv 86400000000
      let rem := (total.fmod 86400000000).toNat
      if -999999999 ≤ d && d ≤ 999999999 then
        .ok (.timedelta d (rem / 1000000) (rem % 1000000))
      else .error (.hostError "OverflowError" "normalized days too large")
    else .error (.hostError "TypeError" "invalid number of arguments")

/-- Calling a value with positional arguments, as `callable(*args)` does in
`visitCallFunc`: the two importable callables dispatch to their constructor
models, any non-callable value raises `TypeError`. -/
def applyCallable : Value → List Value → Except Err Value
  | .callable .datetime, args => pyDatetimeCtor args
  | .callable .timedelta, args => pyTimedeltaCtor args
  | _, _ => .error (.hostError "TypeError" "object is not callable")

namespace SafeEval

/-- `SafeEval.unsupported`: every node class without a dedicated visit
method raises `UnsafeSourceError("Unsupported source construct", node.__class__)`. -/
def unsupported (className : String) : Except Err Value :=
  .error (.unsafeSource "Unsupported source construct" className)

/-- `SafeEval.visitName`: look the lower-cased identifier up in `NAME_MAP`,
otherwise raise `UnsafeSourceError("Strings must be quoted", node.name)`. -/
def visitName (s : String) : Except Err Value :=
  match NAME_MAP.lookup (strLower s) with
  | some v => .ok v
  | Option.none => .error (.unsafeSource "Strings must be quoted" s)

/-- `SafeEval.visitGetattr`: look `node.attrname` up in `ALLOWED_CALLABLES`
(raising `UnsafeSourceError("Callable not allowed.", attrname)` on a miss),
then import the module named by the hit, returning `getattr(module, attrname)` —
the base expression of the attribute access is never visited. The import
always yields the `datetime` module, so the result is one of the two
constructors. -/
def visitGetattr (attrname : String) : Except Err Value :=
  match ALLOWED_CALLABLES.lookup attrname with
  | Option.none => .error (.unsafeSource "Callable not allowed." attrname)
  | some _ =>
    if attrname = "datetime" then .ok (.callable .datetime)
    else .ok (.callable .timedelta)

mutual

/-- `SafeEval.visit`: dispatch on the node class name; classes with a
`visitXxx` method are handled there, everything else falls through to
`unsupported`. -/
def visit : Node → Except Err Value
  | .expression c => visit c
  | .const v => .ok (constToValue v)
  | .name s => visitName s
  | .unarySub c =>
      match constValueOf c with
      | .error e => .error e
      | .ok v => pyNeg v
  | .dict items =>
      match visitPairs items with
      | .error e => .error e
      | .ok ps => .ok (.dict (mkDict ps))
  | .tuple ns =>
      match visitList ns with
      | .error e => .error e
      | .ok vs => .ok (.tuple vs)
  | .list ns =>
      match visitList ns with
      | .error e => .error e
      | .ok vs => .ok (.list vs)
  | .getattr _ attrname => visitGetattr attrname
  | .callFunc callee args =>
      match visit callee with
      | .error e => .error e
      | .ok cal =>
        match visitList args with
        | .error e => .error e
        | .ok vs => applyCallable cal vs
  | .add _ _ => unsupported "Add"
  | .sub _ _ => unsupported "Sub"
  | .subscript _ _ => unsupported "Subscript"
  | .other className => unsupported className

/-- Left-to-right evaluation of a node list (tuple/list elements, call
arguments): the first error aborts the rest. -/
def visitList : List Node → Except Err (List Value)
  | [] => .ok []
  | n :: rest =>
      match visit n with
      | .error e => .error e
      | .ok v =>
        match visitList rest with
        | .error e => .error e
        | .ok vs => .ok (v :: vs)

/-- Left-to-right evaluation of the key/value node pairs of a `Dict` node:
for each pair the key is visited before the value. -/
def visitPairs : List (Node × Node) → Except Err (List (Value × Value))
  | [] => .ok []
  | (k, v) :: rest =>
      match visit k with
      | .error e => .error e
      | .ok kv =>
        match visit v with
        | .error e => .error e
        | .ok vv =>
          match visitPairs rest with
          | .error e => .error e
          | .ok ps => .ok ((kv, vv) :: ps)

end

end SafeEval

/-!
The host front end. The source delegates `parse(source, "eval")` to the host
interpreter's `compiler` module, which is not part of the repository.
Modelled from the spec: the Lexer and Parser components (spec sections 4.1,
4.2 and 6) over the literal fragment the source relies on — with the
difference, observable in the repository's own code, that the host parser
the source actually calls also accepts attribute access, subscripts, binary
`+`/`-` and unary `+` after/around expressions: `SafeEval` has a dedicated
`visitGetattr` handler and `TestDataEval.testDatetime` feeds
`repr(datetime.now())`, i.e. `datetime.datetime(...)`, through `data_eval`,
so those constructs must reach the evaluator rather than fail at parse
time. The model therefore follows the host grammar on them.
-/

/-- Tokens of the literal fragment. -/
inductive Tok where
  | lbrace | rbrace | lbrack | rbrack | lparen | rparen
  | comma | colon | dot | plus | minus
  | int (n : Nat)
  | float (m : Nat) (e : Nat)
  | str (s : String)
  | ident (s : String)
deriving DecidableEq, Repr

/-- ASCII decimal digit test. -/
def isDigitC (c : Char) : Bool := 48 ≤ c.toNat && c.toNat ≤ 57

/-- Value of an ASCII digit. -/
def digitVal (c : Char) : Nat := c.toNat - 48

/-- First character of an identifier: letter or underscore. -/
def isIdentStartC (c : Char) : Bool :=
  (65 ≤ c.toNat && c.toNat ≤ 90) || (97 ≤ c.toNat && c.toNat ≤ 122) || c = '_'

/-- Continuation character of an identifier. -/
def isIdentC (c : Char) : Bool := isIdentStartC c || isDigitC c

/-- Insignificant whitespace (line endings are normalized to newline before
lexing). -/
def isSpaceC (c : Char) : Bool := c = ' ' || c = '\t' || c = '\n'

/-- Canonical form of a decimal float literal `m / 10^e`: trailing zero
digits of the fraction are dropped (keeping at least one fractional digit)
and a trailing bare dot denotes a zero fraction, mirroring how the host
turns the literal text into one float value. -/
def canonFloat : Nat → Nat → Nat × Nat
  | m, 0 => (m * 10, 1)
  | m, 1 => (m, 1)
  | m, e + 2 =>
      if m % 10 = 0 then canonFloat (m / 10) (e + 1) else (m, e + 2)

/-- Lexer state: between tokens, inside an integer / float fraction /
identifier / string literal, or right after a backslash in a string. -/
inductive LexSt where
  | ready
  | num (acc : Nat)
  | frac (acc : Nat) (e : Nat)
  | idt (acc : List Char)
  | strq (q : Char) (acc : List Char)
  | strEsc (q : Char) (acc : List Char)

/-- Single-character punctuation tokens. -/
def punctOf : Char → Option Tok
  | '\x7b' => some .lbrace
  | '\x7d' => some .rbrace
  | '[' => some .lbrack
  | ']' => some .rbrack
  | '(' => some .lparen
  | ')' => some .rparen
  | ',' => some .comma
  | ':' => some .colon
  | '+' => some .plus
  | '-' => some .minus
  | _ => Option.none

/-- A backslash escape inside a string literal, in reverse character order
(for accumulator prepending): the standard escapes are translated, an
unknown escape keeps both the backslash and the character. -/
def unescape (c : Char) : List Char :=
  if c = 'n' then ['\n']
  else if c = 'r' then ['\r']
  else if c = 't' then ['\t']
  else if c = '\\' then ['\\']
  else if c = '\'' then ['\'']
  else if c = '"' then ['"']
  else [c, '\\']

/-- Outcome of dispatching one character from between-tokens position:
tokens to emit and the successor state, or a lexical error. The character
may peek at (but not consume) the following characters, to distinguish a
float starting with a bare dot from punctuation. -/
def readyStep (c : Char) (peek : List Char) : Except String (List Tok × LexSt) :=
  if isSpaceC c then .ok ([], .ready)
  else if isDigitC c then .ok ([], .num (digitVal c))
  else if c = '\'' || c = '"' then .ok ([], .strq c [])
  else if isIdentStartC c then .ok ([], .idt [c])
  else if c = '.' then
    match peek with
    | d :: _ => if isDigitC d then .ok ([], .frac 0 0) else .ok ([.dot], .ready)
    | [] => .ok ([.dot], .ready)
  else
    match punctOf c with
    | some t => .ok ([t], .ready)
    | Option.none => .error "invalid character"

/-- Token finishing a numeric/identifier state. -/
def flushTok : LexSt → List Tok
  | .num acc => [.int acc]
  | .frac acc e => [.float (canonFloat acc e).1 (canonFloat acc e).2]
  | .idt acc => [.ident (String.mk acc.reverse)]
  | _ => []

/-- End of input: finish a pending token; an unterminated string literal is
a lexical error. -/
def lexEnd : LexSt → Except String (List Tok)
  | .strq _ _ => .error "EOL while scanning string literal"
  | .strEsc _ _ => .error "EOL while scanning string literal"
  | st => .ok (flushTok st)

/-- The tokenizer: a single left-to-right pass. -/
def lexGo : List Char → LexSt → Except String (List Tok)
  | [], st => lexEnd st
  | c :: cs, .ready =>
      match readyStep c cs with
      | .error m => .error m
      | .ok (ts, st') =>
        match lexGo cs st' with
        | .error m => .error m
        | .ok more => .ok (ts ++ more)
  | c :: cs, .num acc =>
      if isDigitC c then lexGo cs (.num (10 * acc + digitVal c))
      else if c = '.' then lexGo cs (.frac acc 0)
      else
        match readyStep c cs with
        | .error m => .error m
        | .ok (ts, st') =>
          match lexGo cs st' with
          | .error m => .error m
          | .ok more => .ok (.int acc :: (ts ++ more))
  | c :: cs, .frac acc e =>
      if isDigitC c then lexGo cs (.frac (10 * acc + digitVal c) (e + 1))
      else
        match readyStep c cs with
        | .error m => .error m
        | .ok (ts, st') =>
          match lexGo cs st' with
          | .error m => .error m
          | .ok more =>
              .ok (.float (canonFloat acc e).1 (canonFloat acc e).2 :: (ts ++ more))
  | c :: cs, .idt acc =>
      if isIdentC c then lexGo cs (.idt (c :: acc))
      else
        match readyStep c cs with
        | .error m => .error m
        | .ok (ts, st') =>
          match lexGo cs st' with
          | .error m => .error m
          | .ok more => .ok (.ident (String.mk acc.reverse) :: (ts ++ more))
  | c :: cs, .strq q acc =>
      if c = q then
        match lexGo cs .ready with
        | .error m => .error m
        | .ok more => .ok (.str (String.mk acc.reverse) :: more)
      else if c = '\\' then lexGo cs (.strEsc q acc)
      else if c = '\n' then .error "EOL while scanning string literal"
      else lexGo cs (.strq q (c :: acc))
  | c :: cs, .strEsc q acc => lexGo cs (.strq q (unescape c ++ acc))

/-- Tokenize a character sequence. -/
def tokenize (cs : List Char) : Except String (List Tok) := lexGo cs .ready

/-- Parser stack frames: one per open construct whose completion is pending. -/
inductive Frame where
  | listF (elems : List Node)
  | parenF (elems : List Node) (sawComma : Bool)
  | dictKeyF (pairs : List (Node × Node))
  | dictValF (pairs : List (Node × Node)) (key : Node)
  | callF (callee : Node) (args : List Node)
  | subF (obj : Node)
  | negF
  | uaddF
  | addF (left : Node)
  | subBinF (left : Node)

/-- Parser mode: waiting for the start of an expression, holding a finished
(sub)expression, or waiting for the attribute name after a dot. -/
inductive PMode where
  | expecting
  | haveNode (n : Node)
  | afterDot (n : Node)

/-- Parser state: mode plus the stack of open constructs. -/
structure PState where
  mode : PMode
  stack : List Frame

/-- Reduce the pending unary and additive frames on top of the stack into
the finished node (unary minus on arbitrary expressions and binary `+`/`-`
are accepted by the host grammar; only literal operands later survive
evaluation). Unary plus yields host node class `UnaryAdd`, which `SafeEval`
has no method for; its operand is irrelevant to evaluation, so the model
keeps only the class name. -/
def reduceUn : Node → List Frame → Node × List Frame
  | n, .negF :: k => reduceUn (.unarySub n) k
  | _, .uaddF :: k => reduceUn (.other "UnaryAdd") k
  | n, .addF l :: k => reduceUn (.add l n) k
  | n, .subBinF l :: k => reduceUn (.sub l n) k
  | n, k => (n, k)

/-- Consume one token. Trailers (`.attr`, call and subscript argument
lists) bind tighter than unary minus, which binds tighter than binary
`+`/`-`; containers close against their opening frame. -/
def applyTok (st : PState) (t : Tok) : Except String PState :=
  match st.mode with
  | .expecting =>
    match t with
    | .int n => .ok ⟨.haveNode (.const (.cint n)), st.stack⟩
    | .float m e => .ok ⟨.haveNode (.const (.cfloat m e)), st.stack⟩
    | .str s => .ok ⟨.haveNode (.const (.cstr s)), st.stack⟩
    | .ident s => .ok ⟨.haveNode (.name s), st.stack⟩
    | .minus => .ok ⟨.expecting, .negF :: st.stack⟩
    | .plus => .ok ⟨.expecting, .uaddF :: st.stack⟩
    | .lparen => .ok ⟨.expecting, .parenF [] false :: st.stack⟩
    | .lbrack => .ok ⟨.expecting, .listF [] :: st.stack⟩
    | .lbrace => .ok ⟨.expecting, .dictKeyF [] :: st.stack⟩
    | .rparen =>
      match st.stack with
      | .parenF [] false :: k => .ok ⟨.haveNode (.tuple []), k⟩
      | .parenF es true :: k => .ok ⟨.haveNode (.tuple es), k⟩
      | .callF c args :: k => .ok ⟨.haveNode (.callFunc c args), k⟩
      | _ => .error "unexpected )"
    | .rbrack =>
      match st.stack with
      | .listF es :: k => .ok ⟨.haveNode (.list es), k⟩
      | _ => .error "unexpected ]"
    | .rbrace =>
      match st.stack with
      | .dictKeyF ps :: k => .ok ⟨.haveNode (.dict ps), k⟩
      | _ => .error "unexpected \x7d"
    | _ => .error "unexpected token"
  | .afterDot b =>
    match t with
    | .ident s => .ok ⟨.haveNode (.getattr b s), st.stack⟩
    | _ => .error "expected attribute name"
  | .haveNode n =>
    match t with
    | .dot => .ok ⟨.afterDot n, st.stack⟩
    | .lparen => .ok ⟨.expecting, .callF n [] :: st.stack⟩
    | .lbrack => .ok ⟨.expecting, .subF n :: st.stack⟩
    | _ =>
      match reduceUn n st.stack with
      | (n', k) =>
        match t with
        | .plus => .ok ⟨.expecting, .addF n' :: k⟩
        | .minus => .ok ⟨.expecting, .subBinF n' :: k⟩
        | .comma =>
          match k with
          | .parenF es _ :: k2 => .ok ⟨.expecting, .parenF (es ++ [n']) true :: k2⟩
          | .listF es :: k2 => .ok ⟨.expecting, .listF (es ++ [n']) :: k2⟩
          | .callF c args :: k2 => .ok ⟨.expecting, .callF c (args ++ [n']) :: k2⟩
          | .dictValF ps key :: k2 =>
              .ok ⟨.expecting, .dictKeyF (ps ++ [(key, n')]) :: k2⟩
          | _ => .error "unexpected ,"
        | .colon =>
          match k with
          | .dictKeyF ps :: k2 => .ok ⟨.expecting, .dictValF ps n' :: k2⟩
          | _ => .error "unexpected :"
        | .rparen =>
          match k with
          | .parenF [] false :: k2 => .ok ⟨.haveNode n', k2⟩
          | .parenF es true :: k2 => .ok ⟨.haveNode (.tuple (es ++ [n'])), k2⟩
          | .callF c args :: k2 => .ok ⟨.haveNode (.callFunc c (args ++ [n'])), k2⟩
          | _ => .error "unexpected )"
        | .rbrack =>
          match k with
          | .listF es :: k2 => .ok ⟨.haveNode (.list (es ++ [n'])), k2⟩
          | .subF obj :: k2 => .ok ⟨.haveNode (.subscript obj [n']), k2⟩
          | _ => .error "unexpected ]"
        | .rbrace =>
          match k with
          | .dictValF ps key :: k2 =>
              .ok ⟨.haveNode (.dict (ps ++ [(key, n')])), k2⟩
          | _ => .error "unexpected \x7d"
        | _ => .error "invalid syntax"

/-- End of the token stream: reduce what is pending; exactly one complete
expression must remain. -/
def finish (st : PState) : Except String Node :=
  match st.mode with
  | .haveNode n =>
    match reduceUn n st.stack with
    | (n', []) => .ok n'
    | _ => .error "unexpected EOF"
  | _ => .error "unexpected EOF"

/-- Run the parser over a token sequence from a given state. -/
def runToks : List Tok → PState → Except String PState
  | [], st => .ok st
  | t :: ts, st =>
      match applyTok st t with
      | .error m => .error m
      | .ok st' => runToks ts st'

/-- Run to the end of the tokens and finish, from a given state. -/
def runFrom (st : PState) (ts : List Tok) : Except String Node :=
  match runToks ts st with
  | .error m => .error m
  | .ok st' => finish st'

/-- Parse a token stream into one expression. -/
def parseToks (toks : List Tok) : Except String Node :=
  runFrom ⟨.expecting, []⟩ toks

/-- Modelled from the spec: `compiler.parse(source, "eval")` — tokenize and
parse one expression, wrapped in an `Expression` root node as the host
compiler does. -/
def parse (source : List Char) : Except String Node := do
  return .expression (← parseToks (← tokenize source))

/-- The line-ending normalization in `data_eval`:
`source.replace("\r\n", "\n").replace("\r", "\n")` as a single left-to-right
pass. -/
def normNL : List Char → List Char
  | [] => []
  | '\r' :: '\n' :: cs => '\n' :: normNL cs
  | '\r' :: cs => '\n' :: normNL cs
  | c :: cs => c :: normNL cs

/-- `data_eval`: pass a `dict` through unchanged, reject non-string
non-dict input with a bare `DataEvalError`, otherwise normalize line
endings, parse (wrapping parse failures as `EvalSyntaxError`) and walk the
AST with `SafeEval`. -/
def data_eval : Source → Except Err Value
  | .dict d => .ok (.dict d)
  | .str s =>
      match parse (normNL s.data) with
      | .error m => .error (.evalSyntaxError m)
      | .ok ast => SafeEval.visit ast
  | .intSource _ => .error (.dataEvalError "source must be string/unicode!")
  | .other _ => .error (.dataEvalError "source must be string/unicode!")

/-!
Rendering a `Value` back to literal text (Python `repr`), together with its
token-level and AST-level images, for the round-trip property. The rendering
is modelled from the spec's round-trip clause (section 8) and the host
`repr` conventions the repository's tests rely on (`assert_eval` feeds
`repr(data)` back through `data_eval`).
-/

/-- One decimal digit as a character. -/
def digitC : Nat → Char
  | 0 => '0' | 1 => '1' | 2 => '2' | 3 => '3' | 4 => '4'
  | 5 => '5' | 6 => '6' | 7 => '7' | 8 => '8' | 9 => '9'
  | _ => '*'

/-- Digit accumulation: the number denoted by a digit run, extending an
accumulator (exactly the accumulation the tokenizer performs). -/
def digitsAcc (acc : Nat) (cs : List Char) : Nat :=
  cs.foldl (fun a c => 10 * a + digitVal c) acc

/-- Decimal digits of `n`, most significant first (`fuel ≥ n` suffices). -/
def natToCharsAux : Nat → Nat → List Char → List Char
  | 0, _, acc => acc
  | fuel + 1, n, acc =>
      if n = 0 then acc
      else natToCharsAux fuel (n / 10) (digitC (n % 10) :: acc)

/-- Decimal rendering of a natural number. -/
def natToChars (n : Nat) : List Char :=
  if n = 0 then ['0'] else natToCharsAux n n []

/-- Decimal rendering of an integer (minus sign for negatives). -/
def intToChars (i : Int) : List Char :=
  if i < 0 then '-' :: natToChars i.natAbs else natToChars i.natAbs

/-- The fractional digit block of a float: `e` digits, zero-padded on the
left. -/
def fracChars (v e : Nat) : List Char :=
  List.replicate (e - (natToChars v).length) '0' ++ natToChars v

/-- Decimal rendering of the nonnegative float `m / 10^e`. -/
def floatCharsAbs (m e : Nat) : List Char :=
  natToChars (m / 10 ^ e) ++ '.' :: fracChars (m % 10 ^ e) e

/-- Escape one character of a string literal quoted with `q`: backslash, the
quote character, newline, carriage return and tab are escaped, everything
else is verbatim. -/
def escChar (q c : Char) : List Char :=
  if c = '\\' then ['\\', '\\']
  else if c = q then ['\\', q]
  else if c = '\n' then ['\\', 'n']
  else if c = '\r' then ['\\', 'r']
  else if c = '\t' then ['\\', 't']
  else [c]

/-- Escape a whole string body. -/
def escapeChars (q : Char) : List Char → List Char
  | [] => []
  | c :: cs => escChar q c ++ escapeChars q cs

/-- Python `repr` of a string: single quotes, switching to double quotes
when the text contains a single quote but no double quote. -/
def strRepr (sdata : List Char) : List Char :=
  let q := if sdata.contains '\'' && !sdata.contains '"' then '"' else '\''
  q :: escapeChars q sdata ++ [q]

/-- The positional integer arguments shown by `repr` of a datetime: year,
month, day, hour and minute always; seconds and microseconds only when
needed. -/
def dtArgs (y mo d h mi s us : Nat) : List Int :=
  [(y : Int), mo, d, h, mi] ++
    (if us ≠ 0 then [(s : Int), us] else if s ≠ 0 then [(s : Int)] else [])

/-- The positional integer arguments shown by `repr` of a timedelta: days
always; seconds and microseconds only when needed. -/
def tdArgs (d : Int) (s us : Nat) : List Int :=
  [d] ++ (if us ≠ 0 then [(s : Int), us] else if s ≠ 0 then [(s : Int)] else [])

/-- Comma-and-space join of rendered arguments. -/
def argsJoinChars : List Int → List Char
  | [] => []
  | [i] => intToChars i
  | i :: is => intToChars i ++ ", ".data ++ argsJoinChars is

/-- The tokens of one (possibly negative) integer literal. -/
def intToksOf (i : Int) : List Tok :=
  if i < 0 then [.minus, .int i.natAbs] else [.int i.natAbs]

/-- The AST of one (possibly negative) integer literal. -/
def intNodeOf (i : Int) : Node :=
  if i < 0 then .unarySub (.const (.cint i.natAbs)) else .const (.cint i.natAbs)

/-- Comma join of argument token lists. -/
def argsJoinToks : List Int → List Tok
  | [] => []
  | [i] => intToksOf i
  | i :: is => intToksOf i ++ .comma :: argsJoinToks is

/-- The argument nodes of a constructor call. -/
def argNodes (is : List Int) : List Node := is.map intNodeOf

mutual

/-- Python `repr` of a value, as a character list. -/
def reprChars : Value → List Char
  | .none => "None".data
  | .bool true => "True".data
  | .bool false => "False".data
  | .int n => intToChars n
  | .float m e =>
      if m < 0 then '-' :: floatCharsAbs m.natAbs e else floatCharsAbs m.natAbs e
  | .str s => strRepr s.data
  | .list xs => '[' :: reprListChars xs ++ [']']
  | .tuple [] => "()".data
  | .tuple [x] => '(' :: reprChars x ++ [',', ')']
  | .tuple xs => '(' :: reprListChars xs ++ [')']
  | .dict ps => '\x7b' :: reprPairsChars ps ++ ['\x7d']
  | .datetime y mo d h mi s us =>
      "datetime.datetime(".data ++ argsJoinChars (dtArgs y mo d h mi s us) ++ [')']
  | .timedelta d s us =>
      "datetime.timedelta(".data ++ argsJoinChars (tdArgs d s us) ++ [')']
  | .callable _ => "<callable>".data

/-- Comma-and-space join of element renderings. -/
def reprListChars : List Value → List Char
  | [] => []
  | [x] => reprChars x
  | x :: xs => reprChars x ++ ", ".data ++ reprListChars xs

/-- Dict body rendering: `key: value` pairs joined by commas. -/
def reprPairsChars : List (Value × Value) → List Char
  | [] => []
  | [(k, v)] => reprChars k ++ ": ".data ++ reprChars v
  | (k, v) :: ps => reprChars k ++ ": ".data ++ reprChars v ++ ", ".data ++ reprPairsChars ps

end

mutual

/-- The token sequence of the rendering of a value. -/
def toksOf : Value → List Tok
  | .none => [.ident "None"]
  | .bool true => [.ident "True"]
  | .bool false => [.ident "False"]
  | .int n => intToksOf n
  | .float m e => if m < 0 then [.minus, .float m.natAbs e] else [.float m.natAbs e]
  | .str s => [.str s]
  | .list xs => .lbrack :: toksListOf xs ++ [.rbrack]
  | .tuple [] => [.lparen, .rparen]
  | .tuple [x] => .lparen :: toksOf x ++ [.comma, .rparen]
  | .tuple xs => .lparen :: toksListOf xs ++ [.rparen]
  | .dict ps => .lbrace :: toksPairsOf ps ++ [.rbrace]
  | .datetime y mo d h mi s us =>
      [.ident "datetime", .dot, .ident "datetime", .lparen] ++
        argsJoinToks (dtArgs y mo d h mi s us) ++ [.rparen]
  | .timedelta d s us =>
      [.ident "datetime", .dot, .ident "timedelta", .lparen] ++
        argsJoinToks (tdArgs d s us) ++ [.rparen]
  | .callable _ => [.ident "x"]

/-- Comma join of element token lists. -/
def toksListOf : List Value → List Tok
  | [] => []
  | [x] => toksOf x
  | x :: xs => toksOf x ++ .comma :: toksListOf xs

/-- Token lists of dict entries. -/
def toksPairsOf : List (Value × Value) → List Tok
  | [] => []
  | [(k, v)] => toksOf k ++ .colon :: toksOf v
  | (k, v) :: ps => toksOf k ++ .colon :: toksOf v ++ .comma :: toksPairsOf ps

end

mutual

/-- The AST the host parser produces for the rendering of a value. -/
def astOf : Value → Node
  | .none => .name "None"
  | .bool true => .name "True"
  | .bool false => .name "False"
  | .int n => intNodeOf n
  | .float m e =>
      if m < 0 then .unarySub (.const (.cfloat m.natAbs e)) else .const (.cfloat m.natAbs e)
  | .str s => .const (.cstr s)
  | .list xs => .list (astListOf xs)
  | .tuple xs => .tuple (astListOf xs)
  | .dict ps => .dict (astPairsOf ps)
  | .datetime y mo d h mi s us =>
      .callFunc (.getattr (.name "datetime") "datetime") (argNodes (dtArgs y mo d h mi s us))
  | .timedelta d s us =>
      .callFunc (.getattr (.name "datetime") "timedelta") (argNodes (tdArgs d s us))
  | .callable _ => .name "x"

/-- ASTs of list elements. -/
def astListOf : List Value → List Node
  | [] => []
  | x :: xs => astOf x :: astListOf xs

/-- ASTs of dict entries. -/
def astPairsOf : List (Value × Value) → List (Node × Node)
  | [] => []
  | (k, v) :: ps => (astOf k, astOf v) :: astPairsOf ps

end

/-- Key distinctness of dict entries (with respect to value equality). -/
def distinctKeys : List (Value × Value) → Bool
  | [] => true
  | (k, _) :: ps => ps.all (fun kv => !veq k kv.1) && distinctKeys ps

mutual

/-- Whether a value is producible by the literal grammar: every value kind
except the bare callables, with floats in canonical decimal form, datetimes
within the constructor's ranges, timedeltas normalized, and dict keys
distinct. -/
def producible : Value → Bool
  | .none => true
  | .bool _ => true
  | .int _ => true
  | .float m e => e != 0 && (e == 1 || m.natAbs % 10 != 0)
  | .str _ => true
  | .list xs => producibleList xs
  | .tuple xs => producibleList xs
  | .dict ps => produciblePairs ps && distinctKeys ps
  | .datetime y mo d h mi s us => validDatetime y mo d h mi s us
  | .timedelta d s us =>
      decide (-999999999 ≤ d) && decide (d ≤ 999999999) &&
        decide (s < 86400) && decide (us < 1000000)
  | .callable _ => false

/-- All elements producible. -/
def producibleList : List Value → Bool
  | [] => true
  | x :: xs => producible x && producibleList xs

/-- All keys and values producible. -/
def produciblePairs : List (Value × Value) → Bool
  | [] => true
  | (k, v) :: ps => producible k && producible v && produciblePairs ps

end

/-- Characters after which the tokenizer closes the preceding token without
opening a numeric, string or identifier token: the separators and closers
that can follow a rendered value. -/
def stopChar (c : Char) : Bool :=
  c = ',' || c = ':' || c = ')' || c = ']' || c = '\x7d'

/-- A character list that is empty or starts with a separator/closer. -/
def stopHead : List Char → Bool
  | [] => true
  | c :: _ => stopChar c

/-- Tokens that force reduction of pending unary/additive frames without
starting a trailer. -/
def stopTok : Tok → Bool
  | .comma => true
  | .colon => true
  | .rparen => true
  | .rbrack => true
  | .rbrace => true
  | _ => false

/-- A token list that is empty or starts with a reducing token. -/
def stopToks : List Tok → Bool
  | [] => true
  | t :: _ => stopTok t

/-- Frames that `reduceUn` does not consume. -/
def neutralFrame : Frame → Bool
  | .negF => false
  | .uaddF => false
  | .addF _ => false
  | .subBinF _ => false
  | _ => true

/-- A stack whose top (if any) is not a pending unary/additive frame. -/
def neutralStack : List Frame → Bool
  | [] => true
  | f :: _ => neutralFrame f

/-- Prepend tokens to a tokenizer result (helper for stating how the
tokenizer treats a rendered value followed by more input). -/
def prependToks (ts : List Tok) : Except String (List Tok) → Except String (List Tok)
  | .error m => .error m
  | .ok more => .ok (ts ++ more)

/-!
Lemmas. First the decimal rendering: digits render to digit characters and
the tokenizer's accumulation recovers the rendered number.
-/

/-- Rendered digits are digit characters. -/
theorem isDigitC_digitC (d : Nat) (h : d < 10) : isDigitC (digitC d) = true := by
  interval_cases d <;> decide

/-- Reading a rendered digit gives the digit back. -/
theorem digitVal_digitC (d : Nat) (h : d < 10) : digitVal (digitC d) = d := by
  interval_cases d <;> decide

/-- The digit-run renderer agrees with the base-10 digit list. -/
theorem natToCharsAux_eq : ∀ (fuel n : Nat) (acc : List Char), n ≤ fuel →
    natToCharsAux fuel n acc = ((Nat.digits 10 n).map digitC).reverse ++ acc := by
  intro fuel
  induction fuel with
  | zero =>
    intro n acc h
    interval_cases n
    simp [natToCharsAux]
  | succ fuel ih =>
    intro n acc h
    by_cases h0 : n = 0
    · subst h0; simp [natToCharsAux]
    · have hdiv : n / 10 ≤ fuel := by
        have := Nat.div_lt_self (Nat.pos_of_ne_zero h0) (by norm_num : 1 < 10)
        omega
      rw [show natToCharsAux (fuel + 1) n acc
            = if n = 0 then acc
              else natToCharsAux fuel (n / 10) (digitC (n % 10) :: acc) from rfl,
        if_neg h0, ih (n / 10) _ hdiv,
        Nat.digits_def' (by norm_num : 1 < 10) (Nat.pos_of_ne_zero h0)]
      simp

/-- Every character of a rendered natural number is a digit. -/
theorem natToChars_digits (n : Nat) : ∀ c ∈ natToChars n, isDigitC c = true := by
  intro c hc
  unfold natToChars at hc
  by_cases h0 : n = 0
  · simp [h0] at hc; subst hc; decide
  · rw [if_neg h0, natToCharsAux_eq n n [] le_rfl] at hc
    simp at hc
    obtain ⟨d, hd, rfl⟩ := hc
    exact isDigitC_digitC d (Nat.digits_lt_base (by norm_num) hd)

/-- The rendered digits of `n` are nonempty. -/
theorem natToChars_ne_nil (n : Nat) : natToChars n ≠ [] := by
  unfold natToChars
  by_cases h0 : n = 0
  · simp [h0]
  · rw [if_neg h0, natToCharsAux_eq n n [] le_rfl]
    simp [Nat.digits_ne_nil_iff_ne_zero, h0]

/-- Folding the tokenizer's digit accumulation over a base-10 digit list
(most significant first). -/
theorem digitsAcc_digitList (L : List Nat) (hL : ∀ d ∈ L, d < 10) :
    ∀ acc, digitsAcc acc ((L.map digitC).reverse) =
      acc * 10 ^ L.length + Nat.ofDigits 10 L := by
  induction L with
  | nil => intro acc; simp [digitsAcc, Nat.ofDigits]
  | cons d L ih =>
    intro acc
    have hd : d < 10 := hL d (List.mem_cons_self d L)
    have hL' : ∀ x ∈ L, x < 10 := fun x hx => hL x (List.mem_cons_of_mem d hx)
    have hstep : digitsAcc acc ((List.map digitC (d :: L)).reverse)
        = 10 * digitsAcc acc ((List.map digitC L).reverse) + d := by
      simp [digitsAcc, List.foldl_append, digitVal_digitC d hd]
    rw [hstep, ih hL' acc, Nat.ofDigits_cons]
    simp [pow_succ]
    ring

/-- The tokenizer's accumulation over a rendered natural number. -/
theorem digitsAcc_natToChars (n acc : Nat) :
    digitsAcc acc (natToChars n) = acc * 10 ^ (natToChars n).length + n := by
  unfold natToChars
  by_cases h0 : n = 0
  · subst h0
    simp [digitsAcc, digitVal]
    ring
  · rw [if_neg h0, natToCharsAux_eq n n [] le_rfl]
    simp only [List.append_nil]
    rw [digitsAcc_digitList _ (fun d hd => Nat.digits_lt_base (by norm_num) hd) acc,
      Nat.ofDigits_digits]
    simp

/-- Prepending nothing changes nothing. -/
theorem prependToks_nil (r : Except String (List Tok)) : prependToks [] r = r := by
  cases r <;> simp [prependToks]

/-- Prepending composes by concatenation. -/
theorem prependToks_comp (a b : List Tok) (r : Except String (List Tok)) :
    prependToks a (prependToks b r) = prependToks (a ++ b) r := by
  cases r <;> simp [prependToks]

/-- A digit character is not whitespace. -/
theorem isSpaceC_of_digit (c : Char) (h : isDigitC c = true) : isSpaceC c = false := by
  by_cases h1 : c = ' '
  · subst h1; simp [isDigitC] at h
  · by_cases h2 : c = '\t'
    · subst h2; simp [isDigitC] at h
    · by_cases h3 : c = '\n'
      · subst h3; simp [isDigitC] at h
      · simp [isSpaceC, h1, h2, h3]

/-- Dispatching a digit from between tokens starts an integer token. -/
theorem readyStep_digit (c : Char) (peek : List Char) (h : isDigitC c = true) :
    readyStep c peek = .ok ([], .num (digitVal c)) := by
  unfold readyStep
  rw [isSpaceC_of_digit c h, h]
  simp

/-- One tokenizer step from between tokens, stated through `prependToks`. -/
theorem lexGo_ready_step (c : Char) (cs : List Char) (ts : List Tok) (st' : LexSt)
    (h : readyStep c cs = .ok (ts, st')) :
    lexGo (c :: cs) .ready = prependToks ts (lexGo cs st') := by
  cases hr : lexGo cs st' <;> simp [lexGo, h, hr, prependToks]

/-- One tokenizer step that closes an integer token. -/
theorem lexGo_num_step (c : Char) (cs : List Char) (acc : Nat) (ts : List Tok)
    (st' : LexSt) (hd : isDigitC c = false) (hdot : (c = '.') = False)
    (h : readyStep c cs = .ok (ts, st')) :
    lexGo (c :: cs) (.num acc) = prependToks (.int acc :: ts) (lexGo cs st') := by
  cases hr : lexGo cs st' <;> simp [lexGo, hd, hdot, h, hr, prependToks]

/-- One tokenizer step that closes a float token. -/
theorem lexGo_frac_step (c : Char) (cs : List Char) (acc e : Nat) (ts : List Tok)
    (st' : LexSt) (hd : isDigitC c = false)
    (h : readyStep c cs = .ok (ts, st')) :
    lexGo (c :: cs) (.frac acc e) =
      prependToks (.float (canonFloat acc e).1 (canonFloat acc e).2 :: ts) (lexGo cs st') := by
  cases hr : lexGo cs st' <;> simp [lexGo, hd, h, hr, prependToks]

/-- One tokenizer step that closes an identifier token. -/
theorem lexGo_idt_step (c : Char) (cs : List Char) (acc : List Char) (ts : List Tok)
    (st' : LexSt) (hd : isIdentC c = false)
    (h : readyStep c cs = .ok (ts, st')) :
    lexGo (c :: cs) (.idt acc) =
      prependToks (.ident (String.mk acc.reverse) :: ts) (lexGo cs st') := by
  cases hr : lexGo cs st' <;> simp [lexGo, hd, h, hr, prependToks]

/-- A stop character is one of the five separators/closers. -/
theorem stopChar_cases (c : Char) (h : stopChar c = true) :
    c = ',' ∨ c = ':' ∨ c = ')' ∨ c = ']' ∨ c = '\x7d' := by
  simp [stopChar] at h
  tauto

/-- Consuming a run of digit characters accumulates them into the integer
state. -/
theorem lex_digit_run : ∀ (ds : List Char), (∀ c ∈ ds, isDigitC c = true) →
    ∀ (acc : Nat) (rest : List Char),
      lexGo (ds ++ rest) (.num acc) = lexGo rest (.num (digitsAcc acc ds)) := by
  intro ds
  induction ds with
  | nil => intro _ acc rest; simp [digitsAcc]
  | cons c ds ih =>
    intro hall acc rest
    have hc : isDigitC c = true := hall c (List.mem_cons_self c ds)
    have hds : ∀ x ∈ ds, isDigitC x = true := fun x hx => hall x (List.mem_cons_of_mem c hx)
    show lexGo (c :: (ds ++ rest)) (.num acc) = _
    rw [show lexGo (c :: (ds ++ rest)) (.num acc)
          = lexGo (ds ++ rest) (.num (10 * acc + digitVal c)) by simp [lexGo, hc],
      ih hds]
    simp [digitsAcc]

/-- Consuming a run of digit characters in the fraction state accumulates
them and counts them. -/
theorem lex_frac_run : ∀ (ds : List Char), (∀ c ∈ ds, isDigitC c = true) →
    ∀ (acc e : Nat) (rest : List Char),
      lexGo (ds ++ rest) (.frac acc e) =
        lexGo rest (.frac (digitsAcc acc ds) (e + ds.length)) := by
  intro ds
  induction ds with
  | nil => intro _ acc e rest; simp [digitsAcc]
  | cons c ds ih =>
    intro hall acc e rest
    have hc : isDigitC c = true := hall c (List.mem_cons_self c ds)
    have hds : ∀ x ∈ ds, isDigitC x = true := fun x hx => hall x (List.mem_cons_of_mem c hx)
    show lexGo (c :: (ds ++ rest)) (.frac acc e) = _
    rw [show lexGo (c :: (ds ++ rest)) (.frac acc e)
          = lexGo (ds ++ rest) (.frac (10 * acc + digitVal c) (e + 1)) by simp [lexGo, hc],
      ih hds]
    have harith : e + 1 + ds.length = e + (c :: ds).length := by simp; omega
    rw [harith]
    rfl

/-- Tokenizing a rendered natural number runs into the integer state
holding exactly that number. -/
theorem lex_nat_run (n : Nat) (rest : List Char) :
    lexGo (natToChars n ++ rest) .ready = lexGo rest (.num n) := by
  obtain ⟨c, ds, hds⟩ : ∃ c ds, natToChars n = c :: ds := by
    cases h : natToChars n with
    | nil => exact absurd h (natToChars_ne_nil n)
    | cons c ds => exact ⟨c, ds, rfl⟩
  have hcd : isDigitC c = true := by
    apply natToChars_digits n; rw [hds]; exact List.mem_cons_self c ds
  have hall : ∀ x ∈ ds, isDigitC x = true := fun x hx => by
    apply natToChars_digits n; rw [hds]; exact List.mem_cons_of_mem c hx
  have hval : digitsAcc (digitVal c) ds = n := by
    have h0 := digitsAcc_natToChars n 0
    rw [hds] at h0
    simpa [digitsAcc] using h0
  rw [hds]
  show lexGo (c :: (ds ++ rest)) .ready = _
  rw [lexGo_ready_step c _ _ _ (readyStep_digit c _ hcd), lex_digit_run ds hall _ rest,
    hval, prependToks_nil]

/-- A separator/closer after an integer state closes the integer token. -/
theorem lex_finish_num (acc : Nat) (rest : List Char) (h : stopHead rest = true) :
    lexGo rest (.num acc) = prependToks [.int acc] (lexGo rest .ready) := by
  cases rest with
  | nil => rfl
  | cons c cs =>
    rcases stopChar_cases c h with rfl | rfl | rfl | rfl | rfl <;>
      rw [lexGo_num_step _ _ _ _ _ (by decide) (by simp) (by rfl),
        lexGo_ready_step _ _ _ _ (by rfl), prependToks_comp] <;> rfl

/-- A separator/closer after a fraction state closes the float token. -/
theorem lex_finish_frac (acc e : Nat) (rest : List Char) (h : stopHead rest = true) :
    lexGo rest (.frac acc e) =
      prependToks [.float (canonFloat acc e).1 (canonFloat acc e).2] (lexGo rest .ready) := by
  cases rest with
  | nil => rfl
  | cons c cs =>
    rcases stopChar_cases c h with rfl | rfl | rfl | rfl | rfl <;>
      rw [lexGo_frac_step _ _ _ _ _ _ (by decide) (by rfl),
        lexGo_ready_step _ _ _ _ (by rfl), prependToks_comp] <;> rfl

/-- A separator/closer after an identifier state closes the identifier
token. -/
theorem lex_finish_idt (acc : List Char) (rest : List Char) (h : stopHead rest = true) :
    lexGo rest (.idt acc) =
      prependToks [.ident (String.mk acc.reverse)] (lexGo rest .ready) := by
  cases rest with
  | nil => rfl
  | cons c cs =>
    rcases stopChar_cases c h with rfl | rfl | rfl | rfl | rfl <;>
      rw [lexGo_idt_step _ _ _ _ _ (by decide) (by rfl),
        lexGo_ready_step _ _ _ _ (by rfl), prependToks_comp] <;> rfl

/-- Tokenizing a rendered integer before a separator/closer. -/
theorem lex_int (i : Int) (rest : List Char) (h : stopHead rest = true) :
    lexGo (intToChars i ++ rest) .ready = prependToks (intToksOf i) (lexGo rest .ready) := by
  unfold intToChars intToksOf
  by_cases hi : i < 0
  · rw [if_pos hi, if_pos hi]
    show lexGo ('-' :: (natToChars i.natAbs ++ rest)) .ready = _
    rw [lexGo_ready_step '-' _ [.minus] .ready rfl, lex_nat_run, lex_finish_num _ _ h,
      prependToks_comp]
    rfl
  · rw [if_neg hi, if_neg hi, lex_nat_run, lex_finish_num _ _ h]

/-- A canonical float representation is a fixed point of canonicalization. -/
theorem canonFloat_norm (m e : Nat) (he : e ≠ 0) (hm : e = 1 ∨ m % 10 ≠ 0) :
    canonFloat m e = (m, e) := by
  match e with
  | 0 => exact absurd rfl he
  | 1 => rfl
  | e + 2 =>
    have hm' : m % 10 ≠ 0 := by
      rcases hm with h1 | h1
      · omega
      · exact h1
    simp [canonFloat, hm']

/-- Rendered fraction blocks consist of digits. -/
theorem fracChars_digits (v e : Nat) : ∀ c ∈ fracChars v e, isDigitC c = true := by
  intro c hc
  unfold fracChars at hc
  rcases List.mem_append.1 hc with h | h
  · rw [List.eq_of_mem_replicate h]; decide
  · exact natToChars_digits v c h

/-- A fraction block has exactly `e` digits. -/
theorem fracChars_length (v e : Nat) (hv : v < 10 ^ e) (he : 0 < e) :
    (fracChars v e).length = e := by
  have hle : (natToChars v).length ≤ e := by
    by_cases h0 : v = 0
    · subst h0; simpa [natToChars] using he
    · unfold natToChars
      rw [if_neg h0, natToCharsAux_eq v v [] le_rfl]
      simp
      have hlog : Nat.log 10 v < e := Nat.log_lt_of_lt_pow h0 hv
      rw [Nat.digits_len 10 v (by norm_num) h0]
      omega
  simp [fracChars]
  omega

/-- Digit accumulation over a zero pad. -/
theorem digitsAcc_replicate (k acc : Nat) :
    digitsAcc acc (List.replicate k '0') = acc * 10 ^ k := by
  induction k generalizing acc with
  | zero => simp [digitsAcc]
  | succ k ih =>
    rw [List.replicate_succ]
    show digitsAcc (10 * acc + digitVal '0') (List.replicate k '0') = _
    rw [ih]
    simp [digitVal, pow_succ]
    ring

/-- Digit accumulation over a fraction block recovers the fraction value. -/
theorem digitsAcc_fracChars (v e acc : Nat) (hv : v < 10 ^ e) (he : 0 < e) :
    digitsAcc acc (fracChars v e) = acc * 10 ^ e + v := by
  unfold fracChars
  rw [show digitsAcc acc (List.replicate (e - (natToChars v).length) '0' ++ natToChars v)
        = digitsAcc (digitsAcc acc (List.replicate (e - (natToChars v).length) '0'))
            (natToChars v) from (List.foldl_append ..),
    digitsAcc_replicate, digitsAcc_natToChars]
  have hle : (e - (natToChars v).length) + (natToChars v).length = e := by
    have h2 := fracChars_length v e hv he
    simp [fracChars] at h2
    omega
  rw [mul_assoc, ← pow_add 10, hle]

/-- Tokenizing a rendered nonnegative float before a separator/closer. -/
theorem lex_float (m e : Nat) (he : e ≠ 0) (hm : e = 1 ∨ m % 10 ≠ 0)
    (rest : List Char) (h : stopHead rest = true) :
    lexGo (floatCharsAbs m e ++ rest) .ready =
      prependToks [.float m e] (lexGo rest .ready) := by
  unfold floatCharsAbs
  rw [show (natToChars (m / 10 ^ e) ++ '.' :: fracChars (m % 10 ^ e) e) ++ rest
        = natToChars (m / 10 ^ e) ++ ('.' :: (fracChars (m % 10 ^ e) e ++ rest)) by simp,
    lex_nat_run]
  rw [show lexGo ('.' :: (fracChars (m % 10 ^ e) e ++ rest)) (.num (m / 10 ^ e))
        = lexGo (fracChars (m % 10 ^ e) e ++ rest) (.frac (m / 10 ^ e) 0) by
      simp [lexGo, show isDigitC '.' = false from by decide],
    lex_frac_run _ (fracChars_digits _ _) _ _,
    digitsAcc_fracChars _ _ _ (Nat.mod_lt _ (by positivity)) (Nat.pos_of_ne_zero he)]
  have hm' : m / 10 ^ e * 10 ^ e + m % 10 ^ e = m := Nat.div_add_mod' m (10 ^ e)
  rw [hm', Nat.zero_add, lex_finish_frac _ _ _ h,
    fracChars_length _ _ (Nat.mod_lt _ (by positivity)) (Nat.pos_of_ne_zero he),
    canonFloat_norm m e he hm]

/-- Tokenizing an escaped string body up to the closing quote yields the
original body. -/
theorem lex_str_body : ∀ (body : List Char) (q : Char), (q = '\'' ∨ q = '"') →
    ∀ (acc rest : List Char),
      lexGo (escapeChars q body ++ (q :: rest)) (.strq q acc) =
        prependToks [.str (String.mk (acc.reverse ++ body))] (lexGo rest .ready) := by
  intro body
  induction body with
  | nil =>
    intro q hq acc rest
    show lexGo (q :: rest) (.strq q acc) = _
    rw [show lexGo (q :: rest) (.strq q acc)
          = match lexGo rest .ready with
            | .error m => .error m
            | .ok more => .ok (.str (String.mk acc.reverse) :: more) by simp [lexGo]]
    cases lexGo rest .ready <;> simp [prependToks]
  | cons c body ih =>
    intro q hq acc rest
    have hbsq : ¬ ('\\' = q) := by rcases hq with rfl | rfl <;> decide
    have hstep : ∀ xs, lexGo ('\\' :: xs) (.strq q acc) = lexGo xs (.strEsc q acc) := by
      intro xs
      simp [lexGo, hbsq]
    have hesc : ∀ (x : Char) (xs : List Char),
        lexGo (x :: xs) (.strEsc q acc) = lexGo xs (.strq q (unescape x ++ acc)) :=
      fun x xs => rfl
    by_cases h1 : c = '\\'
    · subst h1
      rw [show escapeChars q ('\\' :: body) ++ (q :: rest)
            = '\\' :: ('\\' :: (escapeChars q body ++ (q :: rest))) from rfl,
        hstep, hesc, show unescape '\\' ++ acc = '\\' :: acc from rfl, ih q hq]
      simp
    · by_cases h2 : c = q
      · subst h2
        rcases hq with rfl | rfl
        · rw [show escapeChars '\'' ('\'' :: body) ++ ('\'' :: rest)
                = '\\' :: ('\'' :: (escapeChars '\'' body ++ ('\'' :: rest))) from rfl,
            hstep, hesc, show unescape '\'' ++ acc = '\'' :: acc from rfl,
            ih '\'' (Or.inl rfl)]
          simp
        · rw [show escapeChars '"' ('"' :: body) ++ ('"' :: rest)
                = '\\' :: ('"' :: (escapeChars '"' body ++ ('"' :: rest))) from rfl,
            hstep, hesc, show unescape '"' ++ acc = '"' :: acc from rfl,
            ih '"' (Or.inr rfl)]
          simp
      · by_cases h3 : c = '\n'
        · subst h3
          rw [show escapeChars q ('\n' :: body) ++ (q :: rest)
                = '\\' :: ('n' :: (escapeChars q body ++ (q :: rest))) by
              simp [escapeChars, escChar, h1, (by rcases hq with rfl | rfl <;> decide : ¬ ('\n' = q))],
            hstep, hesc, show unescape 'n' ++ acc = '\n' :: acc from rfl, ih q hq]
          simp
        · by_cases h4 : c = '\r'
          · subst h4
            rw [show escapeChars q ('\r' :: body) ++ (q :: rest)
                  = '\\' :: ('r' :: (escapeChars q body ++ (q :: rest))) by
                simp [escapeChars, escChar, h1, (by rcases hq with rfl | rfl <;> decide : ¬ ('\r' = q))],
              hstep, hesc, show unescape 'r' ++ acc = '\r' :: acc from rfl, ih q hq]
            simp
          · by_cases h5 : c = '\t'
            · subst h5
              rw [show escapeChars q ('\t' :: body) ++ (q :: rest)
                    = '\\' :: ('t' :: (escapeChars q body ++ (q :: rest))) by
                  simp [escapeChars, escChar, h1, (by rcases hq with rfl | rfl <;> decide : ¬ ('\t' = q))],
                hstep, hesc, show unescape 't' ++ acc = '\t' :: acc from rfl, ih q hq]
              simp
            · rw [show escapeChars q (c :: body) ++ (q :: rest)
                    = c :: (escapeChars q body ++ (q :: rest)) by
                  simp [escapeChars, escChar, h1, h2, h3, h4, h5],
                show lexGo (c :: (escapeChars q body ++ (q :: rest))) (.strq q acc)
                    = lexGo (escapeChars q body ++ (q :: rest)) (.strq q (c :: acc)) by
                  simp [lexGo, h1, h2, h3],
                ih q hq]
              simp

/-- Tokenizing a rendered string literal. -/
theorem lex_str (sdata : List Char) (rest : List Char) :
    lexGo (strRepr sdata ++ rest) .ready =
      prependToks [.str (String.mk sdata)] (lexGo rest .ready) := by
  unfold strRepr
  by_cases hc : sdata.contains '\'' && !sdata.contains '"'
  · rw [if_pos hc]
    show lexGo ('"' :: ((escapeChars '"' sdata ++ ['"']) ++ rest)) .ready = _
    rw [lexGo_ready_step '"' _ [] (.strq '"' []) rfl,
      show (escapeChars '"' sdata ++ ['"']) ++ rest
        = escapeChars '"' sdata ++ ('"' :: rest) by simp,
      lex_str_body sdata '"' (Or.inr rfl) [] rest, prependToks_comp]
    rfl
  · rw [if_neg hc]
    show lexGo ('\'' :: ((escapeChars '\'' sdata ++ ['\'']) ++ rest)) .ready = _
    rw [lexGo_ready_step '\'' _ [] (.strq '\'' []) rfl,
      show (escapeChars '\'' sdata ++ ['\'']) ++ rest
        = escapeChars '\'' sdata ++ ('\'' :: rest) by simp,
      lex_str_body sdata '\'' (Or.inl rfl) [] rest, prependToks_comp]
    rfl

/-- Dispatching an identifier-start character opens an identifier token. -/
theorem readyStep_identStart (c : Char) (peek : List Char)
    (h : isIdentStartC c = true) :
    readyStep c peek = .ok ([], .idt [c]) := by
  have hrange : 65 ≤ c.toNat ∧ c.toNat ≤ 90 ∨ 97 ≤ c.toNat ∧ c.toNat ≤ 122 ∨ c.toNat = 95 := by
    simp [isIdentStartC] at h
    rcases h with (h' | h') | rfl
    · exact Or.inl h'
    · exact Or.inr (Or.inl h')
    · exact Or.inr (Or.inr rfl)
  have hne : ∀ d : Char, c.toNat ≠ d.toNat → (c = d) = False := by
    intro d hd
    simp
    exact fun he => hd (by rw [he])
  have e1 : (c = ' ') = False := hne ' ' (show c.toNat ≠ 32 by omega)
  have e2 : (c = '\t') = False := hne '\t' (show c.toNat ≠ 9 by omega)
  have e3 : (c = '\n') = False := hne '\n' (show c.toNat ≠ 10 by omega)
  have e4 : (c = '\'') = False := hne '\'' (show c.toNat ≠ 39 by omega)
  have e5 : (c = '"') = False := hne '"' (show c.toNat ≠ 34 by omega)
  have h1 : isSpaceC c = false := by simp [isSpaceC, e1, e2, e3]
  have h2 : isDigitC c = false := by simp [isDigitC]; omega
  have h3 : (c = '\'' || c = '"') = false := by simp [e4, e5]
  unfold readyStep
  rw [h1, h2, h3, h]
  simp

/-- Consuming a run of identifier characters accumulates them. -/
theorem lex_ident_run : ∀ (cs : List Char), (∀ c ∈ cs, isIdentC c = true) →
    ∀ (acc rest : List Char),
      lexGo (cs ++ rest) (.idt acc) = lexGo rest (.idt (cs.reverse ++ acc)) := by
  intro cs
  induction cs with
  | nil => intro _ acc rest; simp
  | cons c cs ih =>
    intro hall acc rest
    have hc : isIdentC c = true := hall c (List.mem_cons_self c cs)
    have hcs : ∀ x ∈ cs, isIdentC x = true := fun x hx => hall x (List.mem_cons_of_mem c hx)
    show lexGo (c :: (cs ++ rest)) (.idt acc) = _
    rw [show lexGo (c :: (cs ++ rest)) (.idt acc)
          = lexGo (cs ++ rest) (.idt (c :: acc)) by simp [lexGo, hc],
      ih hcs]
    simp

/-- Tokenizing a rendered identifier before a separator/closer. -/
theorem lex_name (c0 : Char) (cs : List Char) (h0 : isIdentStartC c0 = true)
    (hall : ∀ c ∈ cs, isIdentC c = true) (rest : List Char) (h : stopHead rest = true) :
    lexGo ((c0 :: cs) ++ rest) .ready =
      prependToks [.ident (String.mk (c0 :: cs))] (lexGo rest .ready) := by
  show lexGo (c0 :: (cs ++ rest)) .ready = _
  rw [lexGo_ready_step c0 _ [] (.idt [c0]) (readyStep_identStart c0 _ h0),
    lex_ident_run cs hall [c0] rest, lex_finish_idt _ _ h]
  cases lexGo rest .ready <;> simp [prependToks]

/-- Tokenizing the `datetime.NAME(` prefix of a rendered constructor call. -/
theorem lex_dt_prefix (nm : List Char)
    (hnm : nm = "datetime".data ∨ nm = "timedelta".data) (rest : List Char) :
    lexGo ("datetime.".data ++ (nm ++ ('(' :: rest))) .ready =
      prependToks [.ident "datetime", .dot, .ident (String.mk nm), .lparen]
        (lexGo rest .ready) := by
  rcases hnm with rfl | rfl
  · rw [show "datetime.".data ++ ("datetime".data ++ ('(' :: rest))
        = 'd' :: ("atetime".data ++ ('.' :: ("datetime".data ++ ('(' :: rest)))) from rfl,
      lexGo_ready_step 'd' _ [] (.idt ['d']) (by rfl),
      lex_ident_run "atetime".data (by decide) ['d'] _,
      lexGo_idt_step '.' _ _ [.dot] .ready (by decide) (by rfl),
      show "datetime".data ++ ('(' :: rest)
        = 'd' :: ("atetime".data ++ ('(' :: rest)) from rfl,
      lexGo_ready_step 'd' _ [] (.idt ['d']) (by rfl),
      lex_ident_run "atetime".data (by decide) ['d'] _,
      lexGo_idt_step '(' _ _ [.lparen] .ready (by decide) (by rfl),
      prependToks_comp, prependToks_comp, prependToks_comp]
    rfl
  · rw [show "datetime.".data ++ ("timedelta".data ++ ('(' :: rest))
        = 'd' :: ("atetime".data ++ ('.' :: ("timedelta".data ++ ('(' :: rest)))) from rfl,
      lexGo_ready_step 'd' _ [] (.idt ['d']) (by rfl),
      lex_ident_run "atetime".data (by decide) ['d'] _,
      lexGo_idt_step '.' _ _ [.dot] .ready (by decide) (by rfl),
      show "timedelta".data ++ ('(' :: rest)
        = 't' :: ("imedelta".data ++ ('(' :: rest)) from rfl,
      lexGo_ready_step 't' _ [] (.idt ['t']) (by rfl),
      lex_ident_run "imedelta".data (by decide) ['t'] _,
      lexGo_idt_step '(' _ _ [.lparen] .ready (by decide) (by rfl),
      prependToks_comp, prependToks_comp, prependToks_comp]
    rfl

/-- Tokenizing a rendered comma-separated integer argument list before a
separator/closer. -/
theorem lex_args_join : ∀ (as : List Int), as ≠ [] → ∀ (rest : List Char),
    stopHead rest = true →
    lexGo (argsJoinChars as ++ rest) .ready =
      prependToks (argsJoinToks as) (lexGo rest .ready) := by
  intro as
  induction as with
  | nil => intro h; exact absurd rfl h
  | cons i as ih =>
    intro _ rest hrest
    cases as with
    | nil =>
      show lexGo (argsJoinChars [i] ++ rest) .ready = _
      rw [show argsJoinChars [i] = intToChars i from rfl,
        show argsJoinToks [i] = intToksOf i from rfl, lex_int i rest hrest]
    | cons j as' =>
      rw [show argsJoinChars (i :: j :: as')
            = intToChars i ++ ", ".data ++ argsJoinChars (j :: as') from rfl,
        show argsJoinToks (i :: j :: as')
            = intToksOf i ++ .comma :: argsJoinToks (j :: as') from rfl,
        show (intToChars i ++ ", ".data ++ argsJoinChars (j :: as')) ++ rest
            = intToChars i ++ (',' :: (' ' :: (argsJoinChars (j :: as') ++ rest))) by simp,
        lex_int i _ (by rfl),
        lexGo_ready_step ',' _ [.comma] .ready (by rfl),
        lexGo_ready_step ' ' _ [] .ready (by rfl),
        ih (by simp) rest hrest, prependToks_comp, prependToks_comp, prependToks_comp]
      simp

/-- Strong induction on values by size. -/
theorem value_strong_ind (P : Value → Prop)
    (step : ∀ v, (∀ w, sizeOf w < sizeOf v → P w) → P v) : ∀ v, P v := by
  have H : ∀ (n : Nat) (w : Value), sizeOf w < n → P w := by
    intro n
    induction n with
    | zero => intro w hw; omega
    | succ n ih => intro w _; exact step w (fun u hu => ih u (by omega))
  intro v
  exact step v (fun w hw => H (sizeOf v) w hw)

/-- Tokenizing a rendered element list, given the property for each
element. -/
theorem lex_repr_list : ∀ (ys : List Value),
    (∀ y ∈ ys, producible y = true → ∀ r, stopHead r = true →
      lexGo (reprChars y ++ r) .ready = prependToks (toksOf y) (lexGo r .ready)) →
    producibleList ys = true →
    ∀ r2, stopHead r2 = true →
      lexGo (reprListChars ys ++ r2) .ready =
        prependToks (toksListOf ys) (lexGo r2 .ready) := by
  intro ys
  induction ys with
  | nil =>
    intro _ _ r2 h2
    simp [reprListChars, toksListOf, prependToks_nil]
  | cons x ys ih =>
    intro helem hp r2 h2
    have hx := helem x (List.mem_cons_self x ys)
    have hys : ∀ y ∈ ys, producible y = true → ∀ r, stopHead r = true →
        lexGo (reprChars y ++ r) .ready = prependToks (toksOf y) (lexGo r .ready) :=
      fun y hy => helem y (List.mem_cons_of_mem x hy)
    have hpx : producible x = true ∧ producibleList ys = true := by
      have h' : (producible x && producibleList ys) = true := hp
      simpa using h'
    cases ys with
    | nil =>
      rw [show reprListChars [x] = reprChars x from rfl,
        show toksListOf [x] = toksOf x from rfl]
      exact hx hpx.1 r2 h2
    | cons y ys' =>
      rw [show reprListChars (x :: y :: ys')
            = reprChars x ++ ", ".data ++ reprListChars (y :: ys') from rfl,
        show toksListOf (x :: y :: ys')
            = toksOf x ++ .comma :: toksListOf (y :: ys') from rfl,
        show (reprChars x ++ ", ".data ++ reprListChars (y :: ys')) ++ r2
            = reprChars x ++ (',' :: (' ' :: (reprListChars (y :: ys') ++ r2))) by simp,
        hx hpx.1 _ (by rfl),
        lexGo_ready_step ',' _ [.comma] .ready (by rfl),
        lexGo_ready_step ' ' _ [] .ready (by rfl),
        ih hys hpx.2 r2 h2, prependToks_comp, prependToks_comp, prependToks_comp]
      simp

/-- Tokenizing a rendered dict body, given the property for each key and
value. -/
theorem lex_repr_pairs : ∀ (ps : List (Value × Value)),
    (∀ kv ∈ ps, ∀ y ∈ [kv.1, kv.2], producible y = true → ∀ r, stopHead r = true →
      lexGo (reprChars y ++ r) .ready = prependToks (toksOf y) (lexGo r .ready)) →
    produciblePairs ps = true →
    ∀ r2, stopHead r2 = true →
      lexGo (reprPairsChars ps ++ r2) .ready =
        prependToks (toksPairsOf ps) (lexGo r2 .ready) := by
  intro ps
  induction ps with
  | nil =>
    intro _ _ r2 h2
    simp [reprPairsChars, toksPairsOf, prependToks_nil]
  | cons kv ps ih =>
    obtain ⟨k, v⟩ := kv
    intro helem hp r2 h2
    have hk := helem (k, v) (List.mem_cons_self _ _) k (by simp)
    have hv := helem (k, v) (List.mem_cons_self _ _) v (by simp)
    have hps : ∀ kv ∈ ps, ∀ y ∈ [kv.1, kv.2], producible y = true →
        ∀ r, stopHead r = true →
        lexGo (reprChars y ++ r) .ready = prependToks (toksOf y) (lexGo r .ready) :=
      fun kv hkv => helem kv (List.mem_cons_of_mem _ hkv)
    have hpk : producible k = true ∧ producible v = true ∧ produciblePairs ps = true := by
      have : produciblePairs ((k, v) :: ps)
          = (producible k && (producible v && produciblePairs ps)) := by
        simp [produciblePairs, Bool.and_assoc]
      rw [this] at hp
      simp at hp
      tauto
    cases ps with
    | nil =>
      rw [show reprPairsChars [(k, v)] = reprChars k ++ ": ".data ++ reprChars v from rfl,
        show toksPairsOf [(k, v)] = toksOf k ++ .colon :: toksOf v from rfl,
        show (reprChars k ++ ": ".data ++ reprChars v) ++ r2
            = reprChars k ++ (':' :: (' ' :: (reprChars v ++ r2))) by simp,
        hk hpk.1 _ (by rfl),
        lexGo_ready_step ':' _ [.colon] .ready (by rfl),
        lexGo_ready_step ' ' _ [] .ready (by rfl),
        hv hpk.2.1 r2 h2, prependToks_comp, prependToks_comp, prependToks_comp]
      simp
    | cons kv2 ps' =>
      rw [show reprPairsChars ((k, v) :: kv2 :: ps')
            = reprChars k ++ ": ".data ++ reprChars v ++ ", ".data
                ++ reprPairsChars (kv2 :: ps') from rfl,
        show toksPairsOf ((k, v) :: kv2 :: ps')
            = toksOf k ++ .colon :: toksOf v ++ .comma :: toksPairsOf (kv2 :: ps') from rfl,
        show (reprChars k ++ ": ".data ++ reprChars v ++ ", ".data
                ++ reprPairsChars (kv2 :: ps')) ++ r2
            = reprChars k ++ (':' :: (' ' :: (reprChars v
                ++ (',' :: (' ' :: (reprPairsChars (kv2 :: ps') ++ r2)))))) by simp,
        hk hpk.1 _ (by rfl),
        lexGo_ready_step ':' _ [.colon] .ready (by rfl),
        lexGo_ready_step ' ' _ [] .ready (by rfl),
        hv hpk.2.1 _ (by rfl),
        lexGo_ready_step ',' _ [.comma] .ready (by rfl),
        lexGo_ready_step ' ' _ [] .ready (by rfl),
        ih hps hpk.2.2 r2 h2]
      rw [prependToks_comp, prependToks_comp, prependToks_comp, prependToks_comp,
        prependToks_comp, prependToks_comp]
      simp

/-- Tokenizing the rendering of any producible value before a
separator/closer recovers its token sequence. -/
theorem lex_repr : ∀ (v : Value), producible v = true → ∀ rest, stopHead rest = true →
    lexGo (reprChars v ++ rest) .ready = prependToks (toksOf v) (lexGo rest .ready) := by
  apply value_strong_ind (P := fun v => producible v = true → ∀ rest, stopHead rest = true →
    lexGo (reprChars v ++ rest) .ready = prependToks (toksOf v) (lexGo rest .ready))
  intro v IH hp rest hrest
  cases v with
  | none =>
    rw [show reprChars .none ++ rest = ('N' :: "one".data) ++ rest from rfl,
      lex_name 'N' "one".data (by decide) (by decide) rest hrest]
    rfl
  | bool b =>
    cases b with
    | true =>
      rw [show reprChars (.bool true) ++ rest = ('T' :: "rue".data) ++ rest from rfl,
        lex_name 'T' "rue".data (by decide) (by decide) rest hrest]
      rfl
    | false =>
      rw [show reprChars (.bool false) ++ rest = ('F' :: "alse".data) ++ rest from rfl,
        lex_name 'F' "alse".data (by decide) (by decide) rest hrest]
      rfl
  | int n => exact lex_int n rest hrest
  | float m e =>
    have hp' : (e != 0 && (e == 1 || m.natAbs % 10 != 0)) = true := hp
    simp at hp'
    obtain ⟨he, hm⟩ := hp'
    by_cases hm0 : m < 0
    · rw [show reprChars (.float m e) ++ rest
            = '-' :: (floatCharsAbs m.natAbs e ++ rest) by simp [reprChars, hm0],
        lexGo_ready_step '-' _ [.minus] .ready (by rfl),
        lex_float m.natAbs e he hm rest hrest, prependToks_comp]
      simp [toksOf, hm0]
    · rw [show reprChars (.float m e) ++ rest
            = floatCharsAbs m.natAbs e ++ rest by simp [reprChars, hm0],
        lex_float m.natAbs e he hm rest hrest]
      simp [toksOf, hm0]
  | str s =>
    rw [show reprChars (.str s) = strRepr s.data from rfl, lex_str s.data rest]
    rfl
  | list xs =>
    have helem : ∀ y ∈ xs, producible y = true → ∀ r, stopHead r = true →
        lexGo (reprChars y ++ r) .ready = prependToks (toksOf y) (lexGo r .ready) := by
      intro y hy
      refine IH y ?_
      have h1 := List.sizeOf_lt_of_mem hy
      simp only [Value.list.sizeOf_spec]
      omega
    rw [show reprChars (.list xs) ++ rest
          = '[' :: (reprListChars xs ++ (']' :: rest)) by simp [reprChars],
      lexGo_ready_step '[' _ [.lbrack] .ready (by rfl),
      lex_repr_list xs helem hp _ (by rfl),
      lexGo_ready_step ']' _ [.rbrack] .ready (by rfl),
      prependToks_comp, prependToks_comp]
    simp [toksOf]
  | tuple xs =>
    have helem : ∀ y ∈ xs, producible y = true → ∀ r, stopHead r = true →
        lexGo (reprChars y ++ r) .ready = prependToks (toksOf y) (lexGo r .ready) := by
      intro y hy
      refine IH y ?_
      have h1 := List.sizeOf_lt_of_mem hy
      simp only [Value.tuple.sizeOf_spec]
      omega
    cases xs with
    | nil =>
      rw [show reprChars (.tuple []) ++ rest = '(' :: (')' :: rest) from rfl,
        lexGo_ready_step '(' _ [.lparen] .ready (by rfl),
        lexGo_ready_step ')' _ [.rparen] .ready (by rfl),
        prependToks_comp]
      rfl
    | cons x xs' =>
      cases xs' with
      | nil =>
        have hx := helem x (List.mem_cons_self x [])
        have hpx : producible x = true := by
          have h' : (producible x && producibleList []) = true := hp
          simp at h'
          exact h'.1
        rw [show reprChars (.tuple [x]) ++ rest
              = '(' :: (reprChars x ++ (',' :: (')' :: rest))) by simp [reprChars],
          lexGo_ready_step '(' _ [.lparen] .ready (by rfl),
          hx hpx _ (by rfl),
          lexGo_ready_step ',' _ [.comma] .ready (by rfl),
          lexGo_ready_step ')' _ [.rparen] .ready (by rfl),
          prependToks_comp, prependToks_comp, prependToks_comp]
        simp [toksOf]
      | cons y ys =>
        rw [show reprChars (.tuple (x :: y :: ys)) ++ rest
              = '(' :: (reprListChars (x :: y :: ys) ++ (')' :: rest)) by simp [reprChars],
          lexGo_ready_step '(' _ [.lparen] .ready (by rfl),
          lex_repr_list (x :: y :: ys) helem hp _ (by rfl),
          lexGo_ready_step ')' _ [.rparen] .ready (by rfl),
          prependToks_comp, prependToks_comp]
        simp [toksOf]
  | dict ps =>
    have hpp : produciblePairs ps = true := by
      have h' : (produciblePairs ps && distinctKeys ps) = true := hp
      simp at h'
      exact h'.1
    have helem : ∀ kv ∈ ps, ∀ y ∈ [kv.1, kv.2], producible y = true →
        ∀ r, stopHead r = true →
        lexGo (reprChars y ++ r) .ready = prependToks (toksOf y) (lexGo r .ready) := by
      intro kv hkv y hy
      refine IH y ?_
      have h1 := List.sizeOf_lt_of_mem hkv
      obtain ⟨k', v'⟩ := kv
      simp only [Prod.mk.sizeOf_spec] at h1
      simp only [Value.dict.sizeOf_spec]
      simp at hy
      rcases hy with rfl | rfl <;> omega
    rw [show reprChars (.dict ps) ++ rest
          = '\x7b' :: (reprPairsChars ps ++ ('\x7d' :: rest)) by simp [reprChars],
      lexGo_ready_step '\x7b' _ [.lbrace] .ready (by rfl),
      lex_repr_pairs ps helem hpp _ (by rfl),
      lexGo_ready_step '\x7d' _ [.rbrace] .ready (by rfl),
      prependToks_comp, prependToks_comp]
    simp [toksOf]
  | datetime y mo d h mi s us =>
    have hne : dtArgs y mo d h mi s us ≠ [] := by simp [dtArgs]
    rw [show reprChars (.datetime y mo d h mi s us) ++ rest
          = "datetime.".data ++ ("datetime".data
              ++ ('(' :: (argsJoinChars (dtArgs y mo d h mi s us) ++ (')' :: rest)))) by
        simp [reprChars],
      lex_dt_prefix "datetime".data (Or.inl rfl) _,
      lex_args_join _ hne _ (by rfl),
      lexGo_ready_step ')' _ [.rparen] .ready (by rfl),
      prependToks_comp, prependToks_comp]
    simp [toksOf]
  | timedelta d s us =>
    have hne : tdArgs d s us ≠ [] := by simp [tdArgs]
    rw [show reprChars (.timedelta d s us) ++ rest
          = "datetime.".data ++ ("timedelta".data
              ++ ('(' :: (argsJoinChars (tdArgs d s us) ++ (')' :: rest)))) by
        simp [reprChars],
      lex_dt_prefix "timedelta".data (Or.inr rfl) _,
      lex_args_join _ hne _ (by rfl),
      lexGo_ready_step ')' _ [.rparen] .ready (by rfl),
      prependToks_comp, prependToks_comp]
    simp [toksOf]
  | callable c => simp [producible] at hp

/-- A neutral stack is untouched by reduction. -/
theorem reduceUn_neutral : ∀ (K : List Frame), neutralStack K = true →
    ∀ n, reduceUn n K = (n, K) := by
  intro K hK n
  cases K with
  | nil => rfl
  | cons f k => cases f <;> first | rfl | simp [neutralStack, neutralFrame] at hK

/-- Reduction is idempotent. -/
theorem reduceUn_idem : ∀ (K : List Frame) (n : Node),
    reduceUn (reduceUn n K).1 (reduceUn n K).2 = reduceUn n K := by
  intro K
  induction K with
  | nil => intro n; rfl
  | cons f k ih =>
    intro n
    cases f with
    | negF => exact ih (.unarySub n)
    | uaddF => exact ih (.other "UnaryAdd")
    | addF l => exact ih (.add l n)
    | subBinF l => exact ih (.sub l n)
    | listF es => rfl
    | parenF es b => rfl
    | dictKeyF ps => rfl
    | dictValF ps key => rfl
    | callF c args => rfl
    | subF obj => rfl

/-- One parser step. -/
theorem runFrom_cons (st st' : PState) (t : Tok) (ts : List Tok)
    (h : applyTok st t = .ok st') : runFrom st (t :: ts) = runFrom st' ts := by
  simp [runFrom, runToks, h]

/-- On a reducing token, a held node with pending unary/additive frames
behaves like its reduction. -/
theorem applyTok_reduce (m : Node) (K : List Frame) (t : Tok)
    (ht : stopTok t = true) :
    applyTok ⟨.haveNode m, K⟩ t =
      applyTok ⟨.haveNode (reduceUn m K).1, (reduceUn m K).2⟩ t := by
  rcases hP : reduceUn m K with ⟨n', K'⟩
  have hr : reduceUn n' K' = (n', K') := by
    have h0 := reduceUn_idem K m
    rw [hP] at h0
    exact h0
  cases t <;> simp [stopTok] at ht <;> simp [applyTok, hP, hr]

/-- Unfolding one parser step as a match. -/
theorem runFrom_cons_eq (st : PState) (t : Tok) (ts : List Tok) :
    runFrom st (t :: ts) =
      match applyTok st t with
      | .error msg => .error msg
      | .ok st' => runFrom st' ts := by
  cases h : applyTok st t <;> simp [runFrom, runToks, h]

/-- Before a reducing token (or the end of input), a held node with pending
unary/additive frames runs the same as its reduction. -/
theorem runFrom_reduceUn (m : Node) (K : List Frame) (ts : List Tok)
    (hts : stopToks ts = true) :
    runFrom ⟨.haveNode m, K⟩ ts =
      runFrom ⟨.haveNode (reduceUn m K).1, (reduceUn m K).2⟩ ts := by
  rcases hP : reduceUn m K with ⟨n', K'⟩
  have hr : reduceUn n' K' = (n', K') := by
    have h0 := reduceUn_idem K m
    rw [hP] at h0
    exact h0
  cases ts with
  | nil => simp [runFrom, runToks, finish, hP, hr]
  | cons t ts' =>
    have ht : stopTok t = true := hts
    rw [runFrom_cons_eq, runFrom_cons_eq, applyTok_reduce m K t ht, hP]

/-- Parsing one rendered integer argument before a reducing token. -/
theorem parse_int_arg (i : Int) (K : List Frame) (ts : List Tok)
    (hK : neutralStack K = true) (hts : stopToks ts = true) :
    runFrom ⟨.expecting, K⟩ (intToksOf i ++ ts) =
      runFrom ⟨.haveNode (intNodeOf i), K⟩ ts := by
  unfold intToksOf intNodeOf
  by_cases hi : i < 0
  · rw [if_pos hi, if_pos hi]
    show runFrom ⟨.expecting, K⟩ (.minus :: (.int i.natAbs :: ts)) = _
    rw [runFrom_cons _ ⟨.expecting, .negF :: K⟩ _ _ (by rfl),
      runFrom_cons _ ⟨.haveNode (.const (.cint i.natAbs)), .negF :: K⟩ _ _ (by rfl),
      runFrom_reduceUn _ _ _ hts,
      show reduceUn (.const (.cint i.natAbs)) (.negF :: K)
          = reduceUn (.unarySub (.const (.cint i.natAbs))) K from rfl,
      reduceUn_neutral K hK]
  · rw [if_neg hi, if_neg hi]
    exact runFrom_cons _ ⟨.haveNode (.const (.cint i.natAbs)), K⟩ _ _ (by rfl)

/-- Parsing a rendered argument list inside an open call frame. -/
theorem parse_args : ∀ (as : List Int), as ≠ [] → ∀ (cal : Node) (acc : List Node)
    (K : List Frame) (ts : List Tok), neutralStack K = true → stopToks ts = true →
    runFrom ⟨.expecting, .callF cal acc :: K⟩ (argsJoinToks as ++ (.rparen :: ts)) =
      runFrom ⟨.haveNode (.callFunc cal (acc ++ argNodes as)), K⟩ ts := by
  intro as
  induction as with
  | nil => intro h; exact absurd rfl h
  | cons i as ih =>
    intro _ cal acc K ts hK hts
    cases as with
    | nil =>
      rw [show argsJoinToks [i] = intToksOf i from rfl,
        parse_int_arg i (.callF cal acc :: K) (.rparen :: ts) (by rfl) (by rfl),
        runFrom_cons _ ⟨.haveNode (.callFunc cal (acc ++ [intNodeOf i])), K⟩ _ _ (by rfl)]
      rfl
    | cons j as' =>
      rw [show argsJoinToks (i :: j :: as')
            = intToksOf i ++ .comma :: argsJoinToks (j :: as') from rfl,
        show (intToksOf i ++ .comma :: argsJoinToks (j :: as')) ++ (.rparen :: ts)
            = intToksOf i ++ (.comma :: (argsJoinToks (j :: as') ++ (.rparen :: ts))) by
          simp,
        parse_int_arg i _ _ (by rfl) (by rfl),
        runFrom_cons _ ⟨.expecting, .callF cal (acc ++ [intNodeOf i]) :: K⟩ _ _ (by rfl),
        ih (by simp) cal (acc ++ [intNodeOf i]) K ts hK hts]
      simp [argNodes]

/-- Parsing a rendered element list inside an open list frame. -/
theorem parse_repr_list : ∀ (ys : List Value),
    (∀ y ∈ ys, producible y = true → ∀ (K : List Frame) (ts : List Tok),
      neutralStack K = true → stopToks ts = true →
      runFrom ⟨.expecting, K⟩ (toksOf y ++ ts) = runFrom ⟨.haveNode (astOf y), K⟩ ts) →
    producibleList ys = true →
    ∀ (es : List Node) (K : List Frame) (ts : List Tok),
      neutralStack K = true → stopToks ts = true →
      runFrom ⟨.expecting, .listF es :: K⟩ (toksListOf ys ++ (.rbrack :: ts)) =
        runFrom ⟨.haveNode (.list (es ++ astListOf ys)), K⟩ ts := by
  intro ys
  induction ys with
  | nil =>
    intro _ _ es K ts hK hts
    rw [show toksListOf [] ++ (.rbrack :: ts) = .rbrack :: ts by simp [toksListOf],
      runFrom_cons _ ⟨.haveNode (.list es), K⟩ _ _ (by rfl)]
    simp [astListOf]
  | cons x ys ih =>
    intro helem hp es K ts hK hts
    have hx := helem x (List.mem_cons_self x ys)
    have hys := fun y hy => helem y (List.mem_cons_of_mem x hy)
    have hpx : producible x = true ∧ producibleList ys = true := by
      have h' : (producible x && producibleList ys) = true := hp
      simpa using h'
    cases ys with
    | nil =>
      rw [show toksListOf [x] = toksOf x from rfl,
        hx hpx.1 (.listF es :: K) (.rbrack :: ts) (by rfl) (by rfl),
        runFrom_cons _ ⟨.haveNode (.list (es ++ [astOf x])), K⟩ _ _ (by rfl)]
      simp [astListOf]
    | cons y ys' =>
      rw [show toksListOf (x :: y :: ys') ++ (.rbrack :: ts)
            = toksOf x ++ (.comma :: (toksListOf (y :: ys') ++ (.rbrack :: ts))) by
          simp [toksListOf],
        hx hpx.1 (.listF es :: K) _ (by rfl) (by rfl),
        runFrom_cons _ ⟨.expecting, .listF (es ++ [astOf x]) :: K⟩ _ _ (by rfl),
        ih hys hpx.2 (es ++ [astOf x]) K ts hK hts]
      simp [astListOf]

/-- Parsing a rendered element list inside an open tuple frame that has
already seen a comma. -/
theorem parse_repr_tuple_inner : ∀ (ys : List Value), ys ≠ [] →
    (∀ y ∈ ys, producible y = true → ∀ (K : List Frame) (ts : List Tok),
      neutralStack K = true → stopToks ts = true →
      runFrom ⟨.expecting, K⟩ (toksOf y ++ ts) = runFrom ⟨.haveNode (astOf y), K⟩ ts) →
    producibleList ys = true →
    ∀ (es : List Node) (K : List Frame) (ts : List Tok),
      neutralStack K = true → stopToks ts = true →
      runFrom ⟨.expecting, .parenF es true :: K⟩ (toksListOf ys ++ (.rparen :: ts)) =
        runFrom ⟨.haveNode (.tuple (es ++ astListOf ys)), K⟩ ts := by
  intro ys
  induction ys with
  | nil => intro h; exact absurd rfl h
  | cons x ys ih =>
    intro _ helem hp es K ts hK hts
    have hx := helem x (List.mem_cons_self x ys)
    have hys := fun y hy => helem y (List.mem_cons_of_mem x hy)
    have hpx : producible x = true ∧ producibleList ys = true := by
      have h' : (producible x && producibleList ys) = true := hp
      simpa using h'
    cases ys with
    | nil =>
      rw [show toksListOf [x] = toksOf x from rfl,
        hx hpx.1 (.parenF es true :: K) (.rparen :: ts) (by rfl) (by rfl)]
      cases es with
      | nil =>
        rw [runFrom_cons _ ⟨.haveNode (.tuple ([] ++ [astOf x])), K⟩ _ _ (by rfl)]
        simp [astListOf]
      | cons e es' =>
        rw [runFrom_cons _ ⟨.haveNode (.tuple ((e :: es') ++ [astOf x])), K⟩ _ _ (by rfl)]
        simp [astListOf]
    | cons y ys' =>
      rw [show toksListOf (x :: y :: ys') ++ (.rparen :: ts)
            = toksOf x ++ (.comma :: (toksListOf (y :: ys') ++ (.rparen :: ts))) by
          simp [toksListOf],
        hx hpx.1 (.parenF es true :: K) _ (by rfl) (by rfl),
        runFrom_cons _ ⟨.expecting, .parenF (es ++ [astOf x]) true :: K⟩ _ _ (by rfl),
        ih (by simp) hys hpx.2 (es ++ [astOf x]) K ts hK hts]
      simp [astListOf]

/-- Parsing a rendered dict body inside an open dict frame. -/
theorem parse_repr_pairs : ∀ (ps : List (Value × Value)),
    (∀ kv ∈ ps, ∀ y ∈ [kv.1, kv.2], producible y = true →
      ∀ (K : List Frame) (ts : List Tok),
      neutralStack K = true → stopToks ts = true →
      runFrom ⟨.expecting, K⟩ (toksOf y ++ ts) = runFrom ⟨.haveNode (astOf y), K⟩ ts) →
    produciblePairs ps = true →
    ∀ (acc : List (Node × Node)) (K : List Frame) (ts : List Tok),
      neutralStack K = true → stopToks ts = true →
      runFrom ⟨.expecting, .dictKeyF acc :: K⟩ (toksPairsOf ps ++ (.rbrace :: ts)) =
        runFrom ⟨.haveNode (.dict (acc ++ astPairsOf ps)), K⟩ ts := by
  intro ps
  induction ps with
  | nil =>
    intro _ _ acc K ts hK hts
    rw [show toksPairsOf [] ++ (.rbrace :: ts) = .rbrace :: ts by simp [toksPairsOf],
      runFrom_cons _ ⟨.haveNode (.dict acc), K⟩ _ _ (by rfl)]
    simp [astPairsOf]
  | cons kv ps ih =>
    obtain ⟨k, v⟩ := kv
    intro helem hp acc K ts hK hts
    have hk := helem (k, v) (List.mem_cons_self _ _) k (by simp)
    have hv := helem (k, v) (List.mem_cons_self _ _) v (by simp)
    have hps := fun kv hkv => helem kv (List.mem_cons_of_mem _ hkv)
    have hpk : producible k = true ∧ producible v = true ∧ produciblePairs ps = true := by
      have h' : (producible k && producible v && produciblePairs ps) = true := hp
      simp at h'
      tauto
    cases ps with
    | nil =>
      rw [show toksPairsOf [(k, v)] ++ (.rbrace :: ts)
            = toksOf k ++ (.colon :: (toksOf v ++ (.rbrace :: ts))) by simp [toksPairsOf],
        hk hpk.1 (.dictKeyF acc :: K) _ (by rfl) (by rfl),
        runFrom_cons _ ⟨.expecting, .dictValF acc (astOf k) :: K⟩ _ _ (by rfl),
        hv hpk.2.1 (.dictValF acc (astOf k) :: K) (.rbrace :: ts) (by rfl) (by rfl),
        runFrom_cons _ ⟨.haveNode (.dict (acc ++ [(astOf k, astOf v)])), K⟩ _ _ (by rfl)]
      simp [astPairsOf]
    | cons kv2 ps' =>
      rw [show toksPairsOf ((k, v) :: kv2 :: ps') ++ (.rbrace :: ts)
            = toksOf k ++ (.colon :: (toksOf v
                ++ (.comma :: (toksPairsOf (kv2 :: ps') ++ (.rbrace :: ts))))) by
          simp [toksPairsOf],
        hk hpk.1 (.dictKeyF acc :: K) _ (by rfl) (by rfl),
        runFrom_cons _ ⟨.expecting, .dictValF acc (astOf k) :: K⟩ _ _ (by rfl),
        hv hpk.2.1 (.dictValF acc (astOf k) :: K) _ (by rfl) (by rfl),
        runFrom_cons _ ⟨.expecting, .dictKeyF (acc ++ [(astOf k, astOf v)]) :: K⟩ _ _ (by rfl),
        ih hps hpk.2.2 (acc ++ [(astOf k, astOf v)]) K ts hK hts]
      simp [astPairsOf]

/-- Parsing the token sequence of any producible value before a reducing
token yields its AST, in any neutral context. -/
theorem parse_repr : ∀ (v : Value), producible v = true →
    ∀ (K : List Frame) (ts : List Tok), neutralStack K = true → stopToks ts = true →
    runFrom ⟨.expecting, K⟩ (toksOf v ++ ts) = runFrom ⟨.haveNode (astOf v), K⟩ ts := by
  apply value_strong_ind (P := fun v => producible v = true →
    ∀ (K : List Frame) (ts : List Tok), neutralStack K = true → stopToks ts = true →
    runFrom ⟨.expecting, K⟩ (toksOf v ++ ts) = runFrom ⟨.haveNode (astOf v), K⟩ ts)
  intro v IH hp K ts hK hts
  cases v with
  | none => exact runFrom_cons _ ⟨.haveNode (.name "None"), K⟩ _ _ (by rfl)
  | bool b =>
    cases b with
    | true => exact runFrom_cons _ ⟨.haveNode (.name "True"), K⟩ _ _ (by rfl)
    | false => exact runFrom_cons _ ⟨.haveNode (.name "False"), K⟩ _ _ (by rfl)
  | int n => exact parse_int_arg n K ts hK hts
  | float m e =>
    by_cases hm0 : m < 0
    · rw [show toksOf (.float m e) ++ ts
            = .minus :: (.float m.natAbs e :: ts) by simp [toksOf, hm0],
        runFrom_cons _ ⟨.expecting, .negF :: K⟩ _ _ (by rfl),
        runFrom_cons _ ⟨.haveNode (.const (.cfloat m.natAbs e)), .negF :: K⟩ _ _ (by rfl),
        runFrom_reduceUn _ _ _ hts,
        show reduceUn (.const (.cfloat m.natAbs e)) (.negF :: K)
            = reduceUn (.unarySub (.const (.cfloat m.natAbs e))) K from rfl,
        reduceUn_neutral K hK]
      simp [astOf, hm0]
    · rw [show toksOf (.float m e) ++ ts = .float m.natAbs e :: ts by simp [toksOf, hm0],
        runFrom_cons _ ⟨.haveNode (.const (.cfloat m.natAbs e)), K⟩ _ _ (by rfl)]
      simp [astOf, hm0]
  | str s => exact runFrom_cons _ ⟨.haveNode (.const (.cstr s)), K⟩ _ _ (by rfl)
  | list xs =>
    have helem : ∀ y ∈ xs, producible y = true →
        ∀ (K : List Frame) (ts : List Tok), neutralStack K = true → stopToks ts = true →
        runFrom ⟨.expecting, K⟩ (toksOf y ++ ts) = runFrom ⟨.haveNode (astOf y), K⟩ ts := by
      intro y hy
      refine IH y ?_
      have h1 := List.sizeOf_lt_of_mem hy
      simp only [Value.list.sizeOf_spec]
      omega
    rw [show toksOf (.list xs) ++ ts
          = .lbrack :: (toksListOf xs ++ (.rbrack :: ts)) by simp [toksOf],
      runFrom_cons _ ⟨.expecting, .listF [] :: K⟩ _ _ (by rfl),
      parse_repr_list xs helem hp [] K ts hK hts]
    simp [astOf]
  | tuple xs =>
    have helem : ∀ y ∈ xs, producible y = true →
        ∀ (K : List Frame) (ts : List Tok), neutralStack K = true → stopToks ts = true →
        runFrom ⟨.expecting, K⟩ (toksOf y ++ ts) = runFrom ⟨.haveNode (astOf y), K⟩ ts := by
      intro y hy
      refine IH y ?_
      have h1 := List.sizeOf_lt_of_mem hy
      simp only [Value.tuple.sizeOf_spec]
      omega
    cases xs with
    | nil =>
      rw [show toksOf (.tuple []) ++ ts = .lparen :: (.rparen :: ts) from rfl,
        runFrom_cons _ ⟨.expecting, .parenF [] false :: K⟩ _ _ (by rfl),
        runFrom_cons _ ⟨.haveNode (.tuple []), K⟩ _ _ (by rfl)]
      simp [astOf, astListOf]
    | cons x xs' =>
      have hx := helem x (List.mem_cons_self x xs')
      cases xs' with
      | nil =>
        have hpx : producible x = true := by
          have h' : (producible x && producibleList []) = true := hp
          simp at h'
          exact h'.1
        rw [show toksOf (.tuple [x]) ++ ts
              = .lparen :: (toksOf x ++ (.comma :: (.rparen :: ts))) by simp [toksOf],
          runFrom_cons _ ⟨.expecting, .parenF [] false :: K⟩ _ _ (by rfl),
          hx hpx (.parenF [] false :: K) _ (by rfl) (by rfl),
          runFrom_cons _ ⟨.expecting, .parenF [astOf x] true :: K⟩ _ _ (by rfl),
          runFrom_cons _ ⟨.haveNode (.tuple [astOf x]), K⟩ _ _ (by rfl)]
        simp [astOf, astListOf]
      | cons y ys =>
        have hpx : producible x = true ∧ producibleList (y :: ys) = true := by
          have h' : (producible x && producibleList (y :: ys)) = true := hp
          simpa using h'
        have hys := fun z hz => helem z (List.mem_cons_of_mem x hz)
        rw [show toksOf (.tuple (x :: y :: ys)) ++ ts
              = .lparen :: (toksOf x
                  ++ (.comma :: (toksListOf (y :: ys) ++ (.rparen :: ts)))) by
            simp [toksOf, toksListOf],
          runFrom_cons _ ⟨.expecting, .parenF [] false :: K⟩ _ _ (by rfl),
          hx hpx.1 (.parenF [] false :: K) _ (by rfl) (by rfl),
          runFrom_cons _ ⟨.expecting, .parenF [astOf x] true :: K⟩ _ _ (by rfl),
          parse_repr_tuple_inner (y :: ys) (by simp) hys hpx.2 [astOf x] K ts hK hts]
        simp [astOf, astListOf]
  | dict ps =>
    have hpp : produciblePairs ps = true := by
      have h' : (produciblePairs ps && distinctKeys ps) = true := hp
      simp at h'
      exact h'.1
    have helem : ∀ kv ∈ ps, ∀ y ∈ [kv.1, kv.2], producible y = true →
        ∀ (K : List Frame) (ts : List Tok), neutralStack K = true → stopToks ts = true →
        runFrom ⟨.expecting, K⟩ (toksOf y ++ ts) = runFrom ⟨.haveNode (astOf y), K⟩ ts := by
      intro kv hkv y hy
      refine IH y ?_
      have h1 := List.sizeOf_lt_of_mem hkv
      obtain ⟨k', v'⟩ := kv
      simp only [Prod.mk.sizeOf_spec] at h1
      simp only [Value.dict.sizeOf_spec]
      simp at hy
      rcases hy with rfl | rfl <;> omega
    rw [show toksOf (.dict ps) ++ ts
          = .lbrace :: (toksPairsOf ps ++ (.rbrace :: ts)) by simp [toksOf],
      runFrom_cons _ ⟨.expecting, .dictKeyF [] :: K⟩ _ _ (by rfl),
      parse_repr_pairs ps helem hpp [] K ts hK hts]
    simp [astOf]
  | datetime y mo d h mi s us =>
    have hne : dtArgs y mo d h mi s us ≠ [] := by simp [dtArgs]
    rw [show toksOf (.datetime y mo d h mi s us) ++ ts
          = .ident "datetime" :: (.dot :: (.ident "datetime" :: (.lparen ::
              (argsJoinToks (dtArgs y mo d h mi s us) ++ (.rparen :: ts))))) by
        simp [toksOf],
      runFrom_cons _ ⟨.haveNode (.name "datetime"), K⟩ _ _ (by rfl),
      runFrom_cons _ ⟨.afterDot (.name "datetime"), K⟩ _ _ (by rfl),
      runFrom_cons _ ⟨.haveNode (.getattr (.name "datetime") "datetime"), K⟩ _ _ (by rfl),
      runFrom_cons _ ⟨.expecting,
        .callF (.getattr (.name "datetime") "datetime") [] :: K⟩ _ _ (by rfl),
      parse_args (dtArgs y mo d h mi s us) hne _ [] K ts hK hts]
    simp [astOf]
  | timedelta d s us =>
    have hne : tdArgs d s us ≠ [] := by simp [tdArgs]
    rw [show toksOf (.timedelta d s us) ++ ts
          = .ident "datetime" :: (.dot :: (.ident "timedelta" :: (.lparen ::
              (argsJoinToks (tdArgs d s us) ++ (.rparen :: ts))))) by
        simp [toksOf],
      runFrom_cons _ ⟨.haveNode (.name "datetime"), K⟩ _ _ (by rfl),
      runFrom_cons _ ⟨.afterDot (.name "datetime"), K⟩ _ _ (by rfl),
      runFrom_cons _ ⟨.haveNode (.getattr (.name "datetime") "timedelta"), K⟩ _ _ (by rfl),
      runFrom_cons _ ⟨.expecting,
        .callF (.getattr (.name "datetime") "timedelta") [] :: K⟩ _ _ (by rfl),
      parse_args (tdArgs d s us) hne _ [] K ts hK hts]
    simp [astOf]
  | callable c => simp [producible] at hp

/-- Evaluating the AST of a rendered integer gives the integer back. -/
theorem visit_intNodeOf (i : Int) : SafeEval.visit (intNodeOf i) = .ok (.int i) := by
  unfold intNodeOf
  by_cases hi : i < 0
  · rw [if_pos hi]
    have hv : ((i.natAbs : Int)) = -i := Int.ofNat_natAbs_of_nonpos (by omega)
    show (match constValueOf (.const (.cint i.natAbs)) with
          | .error e => .error e
          | .ok v => pyNeg v) = Except.ok (Value.int i)
    simp [constValueOf, pyNeg, hv]
  · rw [if_neg hi]
    have hv : ((i.natAbs : Int)) = i := Int.natAbs_of_nonneg (by omega)
    show Except.ok (constToValue (ConstVal.cint i.natAbs)) = Except.ok (Value.int i)
    simp [constToValue, hv]

/-- Evaluating the argument nodes of a rendered call yields the integer
argument values. -/
theorem visitList_argNodes : ∀ (as : List Int),
    SafeEval.visitList (argNodes as) = .ok (as.map Value.int) := by
  intro as
  induction as with
  | nil => rfl
  | cons i as ih =>
    show SafeEval.visitList (intNodeOf i :: argNodes as) = _
    rw [show SafeEval.visitList (intNodeOf i :: argNodes as)
          = match SafeEval.visit (intNodeOf i) with
            | .error e => .error e
            | .ok v =>
              match SafeEval.visitList (argNodes as) with
              | .error e => .error e
              | .ok vs => .ok (v :: vs) from rfl,
      visit_intNodeOf, ih]
    rfl

/-- Reading integer values back as host integers (loop form). -/
theorem mapM_loop_asPyInt : ∀ (as : List Int) (acc : List Int),
    List.mapM.loop asPyInt (as.map Value.int) acc = some (acc.reverse ++ as) := by
  intro as
  induction as with
  | nil => intro acc; simp [List.mapM.loop]
  | cons i as ih =>
    intro acc
    rw [show List.mapM.loop asPyInt ((i :: as).map Value.int) acc
          = List.mapM.loop asPyInt (as.map Value.int) (i :: acc) from rfl,
      ih (i :: acc)]
    simp

/-- Reading integer values back as host integers. -/
theorem mapM_asPyInt (as : List Int) : (as.map Value.int).mapM asPyInt = some as := by
  show List.mapM.loop asPyInt (as.map Value.int) [] = some as
  rw [mapM_loop_asPyInt as []]
  simp

/-- Inserting a pair whose key matches nothing in the accumulator appends
it. -/
theorem dictInsert_fresh : ∀ (acc : List (Value × Value)) (k v : Value),
    (∀ kv ∈ acc, veq kv.1 k = false) →
    dictInsert acc (k, v) = acc ++ [(k, v)] := by
  intro acc
  induction acc with
  | nil => intro k v _; rfl
  | cons kv0 acc ih =>
    obtain ⟨k0, v0⟩ := kv0
    intro k v hfresh
    have h0 : veq k0 k = false := hfresh (k0, v0) (List.mem_cons_self _ _)
    show (if veq k0 k then (k0, v) :: acc else (k0, v0) :: dictInsert acc (k, v)) = _
    rw [h0, ih k v (fun kv hkv => hfresh kv (List.mem_cons_of_mem _ hkv))]
    simp

/-- Folding dict insertion over pairwise-distinct pairs appends them all. -/
theorem foldl_dictInsert_distinct : ∀ (ps : List (Value × Value))
    (acc : List (Value × Value)), distinctKeys ps = true →
    (∀ kv ∈ acc, ∀ kv2 ∈ ps, veq kv.1 kv2.1 = false) →
    ps.foldl dictInsert acc = acc ++ ps := by
  intro ps
  induction ps with
  | nil => intro acc _ _; simp
  | cons kv0 ps ih =>
    obtain ⟨k, v⟩ := kv0
    intro acc hdist hacc
    have hd : ps.all (fun kv => !veq k kv.1) = true ∧ distinctKeys ps = true := by
      have h' : (ps.all (fun kv => !veq k kv.1) && distinctKeys ps) = true := hdist
      simpa using h'
    show (ps.foldl dictInsert (dictInsert acc (k, v))) = _
    rw [dictInsert_fresh acc k v
        (fun kv hkv => hacc kv hkv (k, v) (List.mem_cons_self _ _)),
      ih (acc ++ [(k, v)]) hd.2 ?fresh]
    · simp
    case fresh =>
      intro kv hkv kv2 hkv2
      rcases List.mem_append.1 hkv with h | h
      · exact hacc kv h kv2 (List.mem_cons_of_mem _ hkv2)
      · have hk : kv = (k, v) := by simpa using h
        subst hk
        have hall := List.all_eq_true.1 hd.1 kv2 hkv2
        simpa using hall

/-- Evaluating a dict literal with distinct keys keeps its entries. -/
theorem mkDict_distinct (ps : List (Value × Value)) (h : distinctKeys ps = true) :
    mkDict ps = ps := by
  unfold mkDict
  rw [foldl_dictInsert_distinct ps [] h (by simp)]
  simp

/-- The timedelta constructor on the rendered arguments of a normalized
timedelta recovers it. -/
theorem pyTimedeltaCtor_args (d : Int) (s us : Nat) (hd1 : -999999999 ≤ d)
    (hd2 : d ≤ 999999999) (hs : s < 86400) (hus : us < 1000000) :
    pyTimedeltaCtor ((tdArgs d s us).map Value.int) = .ok (.timedelta d s us) := by
  unfold pyTimedeltaCtor
  rw [mapM_asPyInt]
  by_cases hus0 : us = 0
  · by_cases hs0 : s = 0
    · subst hus0 hs0
      simp only [tdArgs, if_neg (by simp : ¬(0 : Nat) ≠ 0), List.append_nil]
      simp only [List.length_cons, List.length_nil, List.getD, List.get?, Option.getD]
      norm_num
      rw [Int.fdiv_eq_ediv _ (by norm_num), Int.fmod_eq_emod _ (by norm_num),
        if_pos (by constructor <;> omega)]
      simp only [Except.ok.injEq, Value.timedelta.injEq]
      refine ⟨by omega, by omega, by omega⟩
    · subst hus0
      simp only [tdArgs, if_neg (by simp : ¬(0 : Nat) ≠ 0), if_pos hs0]
      simp only [List.cons_append, List.nil_append, List.map_cons, List.map_nil]
      simp only [List.length_cons, List.length_nil, List.getD, List.get?, Option.getD]
      norm_num
      rw [Int.fdiv_eq_ediv _ (by norm_num), Int.fmod_eq_emod _ (by norm_num),
        if_pos (by constructor <;> omega)]
      simp only [Except.ok.injEq, Value.timedelta.injEq]
      refine ⟨by omega, by omega, by omega⟩
  · simp only [tdArgs, if_pos hus0]
    simp only [List.cons_append, List.nil_append, List.map_cons, List.map_nil]
    simp only [List.length_cons, List.length_nil, List.getD, List.get?, Option.getD]
    norm_num
    rw [Int.fdiv_eq_ediv _ (by norm_num), Int.fmod_eq_emod _ (by norm_num),
      if_pos (by constructor <;> omega)]
    simp only [Except.ok.injEq, Value.timedelta.injEq]
    refine ⟨by omega, by omega, by omega⟩

/-- The datetime constructor on the rendered arguments of a valid datetime
recovers it. -/
theorem pyDatetimeCtor_args (y mo d h mi s us : Nat)
    (hv : validDatetime y mo d h mi s us = true) :
    pyDatetimeCtor ((dtArgs y mo d h mi s us).map Value.int) =
      .ok (.datetime y mo d h mi s us) := by
  unfold pyDatetimeCtor
  rw [mapM_asPyInt]
  by_cases hus0 : us = 0
  · by_cases hs0 : s = 0
    · subst hus0 hs0
      simp only [dtArgs, if_neg (by simp : ¬(0 : Nat) ≠ 0), List.append_nil]
      show pyDatetimeCtor.mk y mo d h mi 0 0 = _
      unfold pyDatetimeCtor.mk
      rw [if_pos (by simpa using hv)]
      simp
    · subst hus0
      simp only [dtArgs, if_neg (by simp : ¬(0 : Nat) ≠ 0), if_pos hs0,
        List.cons_append, List.nil_append]
      show pyDatetimeCtor.mk y mo d h mi s 0 = _
      unfold pyDatetimeCtor.mk
      rw [if_pos (by simpa using hv)]
      simp
  · simp only [dtArgs, if_pos hus0, List.cons_append, List.nil_append]
    show pyDatetimeCtor.mk y mo d h mi s us = _
    unfold pyDatetimeCtor.mk
    rw [if_pos (by simpa using hv)]
    simp

/-- Evaluating rendered element ASTs elementwise. -/
theorem eval_repr_list : ∀ (ys : List Value),
    (∀ y ∈ ys, producible y = true → SafeEval.visit (astOf y) = .ok y) →
    producibleList ys = true →
    SafeEval.visitList (astListOf ys) = .ok ys := by
  intro ys
  induction ys with
  | nil => intro _ _; rfl
  | cons x ys ih =>
    intro helem hp
    have hpx : producible x = true ∧ producibleList ys = true := by
      have h' : (producible x && producibleList ys) = true := hp
      simpa using h'
    rw [show astListOf (x :: ys) = astOf x :: astListOf ys from rfl,
      show SafeEval.visitList (astOf x :: astListOf ys)
          = match SafeEval.visit (astOf x) with
            | .error e => .error e
            | .ok v =>
              match SafeEval.visitList (astListOf ys) with
              | .error e => .error e
              | .ok vs => .ok (v :: vs) from rfl,
      helem x (List.mem_cons_self x ys) hpx.1,
      ih (fun y hy => helem y (List.mem_cons_of_mem x hy)) hpx.2]

/-- Evaluating rendered dict entry ASTs pairwise. -/
theorem eval_repr_pairs : ∀ (ps : List (Value × Value)),
    (∀ kv ∈ ps, ∀ y ∈ [kv.1, kv.2], producible y = true →
      SafeEval.visit (astOf y) = .ok y) →
    produciblePairs ps = true →
    SafeEval.visitPairs (astPairsOf ps) = .ok ps := by
  intro ps
  induction ps with
  | nil => intro _ _; rfl
  | cons kv ps ih =>
    obtain ⟨k, v⟩ := kv
    intro helem hp
    have hpk : producible k = true ∧ producible v = true ∧ produciblePairs ps = true := by
      have h' : (producible k && producible v && produciblePairs ps) = true := hp
      simp at h'
      tauto
    rw [show astPairsOf ((k, v) :: ps) = (astOf k, astOf v) :: astPairsOf ps from rfl,
      show SafeEval.visitPairs ((astOf k, astOf v) :: astPairsOf ps)
          = match SafeEval.visit (astOf k) with
            | .error e => .error e
            | .ok kv' =>
              match SafeEval.visit (astOf v) with
              | .error e => .error e
              | .ok vv =>
                match SafeEval.visitPairs (astPairsOf ps) with
                | .error e => .error e
                | .ok rest => .ok ((kv', vv) :: rest) from rfl,
      helem (k, v) (List.mem_cons_self _ _) k (by simp) hpk.1,
      helem (k, v) (List.mem_cons_self _ _) v (by simp) hpk.2.1,
      ih (fun kv hkv => helem kv (List.mem_cons_of_mem _ hkv)) hpk.2.2]

/-- Walking the AST of the rendering of any producible value with
`SafeEval` recovers the value. -/
theorem eval_repr : ∀ (v : Value), producible v = true →
    SafeEval.visit (astOf v) = .ok v := by
  apply value_strong_ind (P := fun v => producible v = true →
    SafeEval.visit (astOf v) = .ok v)
  intro v IH hp
  cases v with
  | none => rfl
  | bool b => cases b <;> rfl
  | int n => exact visit_intNodeOf n
  | float m e =>
    by_cases hm0 : m < 0
    · rw [show astOf (.float m e)
            = .unarySub (.const (.cfloat m.natAbs e)) by simp [astOf, hm0]]
      have hv : ((m.natAbs : Int)) = -m := Int.ofNat_natAbs_of_nonpos (by omega)
      show (match constValueOf (.const (.cfloat m.natAbs e)) with
            | .error e => .error e
            | .ok cv => pyNeg cv) = Except.ok (Value.float m e)
      simp [constValueOf, pyNeg, hv]
    · rw [show astOf (.float m e) = .const (.cfloat m.natAbs e) by simp [astOf, hm0]]
      have hv : ((m.natAbs : Int)) = m := Int.natAbs_of_nonneg (by omega)
      show Except.ok (constToValue (ConstVal.cfloat m.natAbs e)) = Except.ok (Value.float m e)
      simp [constToValue, hv]
  | str s => rfl
  | list xs =>
    have helem : ∀ y ∈ xs, producible y = true → SafeEval.visit (astOf y) = .ok y := by
      intro y hy
      refine IH y ?_
      have h1 := List.sizeOf_lt_of_mem hy
      simp only [Value.list.sizeOf_spec]
      omega
    rw [show astOf (.list xs) = .list (astListOf xs) from rfl,
      show SafeEval.visit (.list (astListOf xs))
          = match SafeEval.visitList (astListOf xs) with
            | .error e => .error e
            | .ok vs => .ok (.list vs) from rfl,
      eval_repr_list xs helem hp]
  | tuple xs =>
    have helem : ∀ y ∈ xs, producible y = true → SafeEval.visit (astOf y) = .ok y := by
      intro y hy
      refine IH y ?_
      have h1 := List.sizeOf_lt_of_mem hy
      simp only [Value.tuple.sizeOf_spec]
      omega
    rw [show astOf (.tuple xs) = .tuple (astListOf xs) from rfl,
      show SafeEval.visit (.tuple (astListOf xs))
          = match SafeEval.visitList (astListOf xs) with
            | .error e => .error e
            | .ok vs => .ok (.tuple vs) from rfl,
      eval_repr_list xs helem hp]
  | dict ps =>
    have hpd : produciblePairs ps = true ∧ distinctKeys ps = true := by
      have h' : (produciblePairs ps && distinctKeys ps) = true := hp
      simpa using h'
    have helem : ∀ kv ∈ ps, ∀ y ∈ [kv.1, kv.2], producible y = true →
        SafeEval.visit (astOf y) = .ok y := by
      intro kv hkv y hy
      refine IH y ?_
      have h1 := List.sizeOf_lt_of_mem hkv
      obtain ⟨k', v'⟩ := kv
      simp only [Prod.mk.sizeOf_spec] at h1
      simp only [Value.dict.sizeOf_spec]
      simp at hy
      rcases hy with rfl | rfl <;> omega
    rw [show astOf (.dict ps) = .dict (astPairsOf ps) from rfl,
      show SafeEval.visit (.dict (astPairsOf ps))
          = match SafeEval.visitPairs (astPairsOf ps) with
            | .error e => .error e
            | .ok prs => .ok (.dict (mkDict prs)) from rfl,
      eval_repr_pairs ps helem hpd.1]
    show Except.ok (Value.dict (mkDict ps)) = Except.ok (Value.dict ps)
    rw [mkDict_distinct ps hpd.2]
  | datetime y mo d h mi s us =>
    rw [show astOf (.datetime y mo d h mi s us)
          = .callFunc (.getattr (.name "datetime") "datetime")
              (argNodes (dtArgs y mo d h mi s us)) from rfl,
      show SafeEval.visit (.callFunc (.getattr (.name "datetime") "datetime")
              (argNodes (dtArgs y mo d h mi s us)))
          = match SafeEval.visitList (argNodes (dtArgs y mo d h mi s us)) with
            | .error e => .error e
            | .ok vs => applyCallable (.callable .datetime) vs from rfl,
      visitList_argNodes]
    exact pyDatetimeCtor_args y mo d h mi s us hp
  | timedelta d s us =>
    have hb : (-999999999 ≤ d ∧ d ≤ 999999999) ∧ s < 86400 ∧ us < 1000000 := by
      have h' : (decide (-999999999 ≤ d) && decide (d ≤ 999999999) &&
          decide (s < 86400) && decide (us < 1000000)) = true := hp
      simp at h'
      tauto
    rw [show astOf (.timedelta d s us)
          = .callFunc (.getattr (.name "datetime") "timedelta")
              (argNodes (tdArgs d s us)) from rfl,
      show SafeEval.visit (.callFunc (.getattr (.name "datetime") "timedelta")
              (argNodes (tdArgs d s us)))
          = match SafeEval.visitList (argNodes (tdArgs d s us)) with
            | .error e => .error e
            | .ok vs => applyCallable (.callable .timedelta) vs from rfl,
      visitList_argNodes]
    exact pyTimedeltaCtor_args d s us hb.1.1 hb.1.2 hb.2.1 hb.2.2
  | callable c => simp [producible] at hp

/-- Line-ending normalization does not alter text without carriage
returns. -/
theorem normNL_id : ∀ (cs : List Char), (∀ c ∈ cs, c ≠ '\r') → normNL cs = cs := by
  intro cs
  induction cs with
  | nil => intro _; rfl
  | cons c cs ih =>
    intro h
    have hc : c ≠ '\r' := h c (List.mem_cons_self c cs)
    have hcs : ∀ x ∈ cs, x ≠ '\r' := fun x hx => h x (List.mem_cons_of_mem c hx)
    cases cs with
    | nil => simp [normNL, hc]
    | cons c2 cs2 => simp [normNL, hc, ih hcs]

/-- Rendered naturals contain no carriage return. -/
theorem noCR_natToChars (n : Nat) : ∀ c ∈ natToChars n, c ≠ '\r' := by
  intro c hc heq
  subst heq
  exact absurd (natToChars_digits n '\r' hc) (by decide)

/-- Rendered integers contain no carriage return. -/
theorem noCR_intToChars (i : Int) : ∀ c ∈ intToChars i, c ≠ '\r' := by
  intro c hc
  unfold intToChars at hc
  by_cases hi : i < 0
  · rw [if_pos hi] at hc
    rcases List.mem_cons.1 hc with rfl | h
    · decide
    · exact noCR_natToChars _ c h
  · rw [if_neg hi] at hc
    exact noCR_natToChars _ c hc

/-- Rendered fraction blocks contain no carriage return. -/
theorem noCR_fracChars (v e : Nat) : ∀ c ∈ fracChars v e, c ≠ '\r' := by
  intro c hc
  unfold fracChars at hc
  rcases List.mem_append.1 hc with h | h
  · rw [List.eq_of_mem_replicate h]; decide
  · exact noCR_natToChars _ c h

/-- Rendered nonnegative floats contain no carriage return. -/
theorem noCR_floatCharsAbs (m e : Nat) : ∀ c ∈ floatCharsAbs m e, c ≠ '\r' := by
  intro c hc
  unfold floatCharsAbs at hc
  rcases List.mem_append.1 hc with h | h
  · exact noCR_natToChars _ c h
  · rcases List.mem_cons.1 h with rfl | h2
    · decide
    · exact noCR_fracChars _ _ c h2

/-- Escaped string bodies contain no carriage return (it is escaped to a
backslash and the letter `r`). -/
theorem noCR_escapeChars (q : Char) (hq : q = '\'' ∨ q = '"') :
    ∀ (body : List Char), ∀ c ∈ escapeChars q body, c ≠ '\r' := by
  intro body
  induction body with
  | nil => intro c hc; simp [escapeChars] at hc
  | cons b body ih =>
    intro c hc
    rw [show escapeChars q (b :: body) = escChar q b ++ escapeChars q body from rfl] at hc
    rcases List.mem_append.1 hc with h | h
    · rcases hq with rfl | rfl <;>
      · unfold escChar at h
        by_cases h1 : b = '\\'
        · simp [h1] at h
          rcases h with rfl | rfl <;> decide
        · by_cases h2 : b = '\''
          · simp [h1, h2] at h
            rcases h with rfl | rfl <;> decide
          · by_cases h2b : b = '"'
            · simp [h1, h2, h2b] at h
              rcases h with rfl | rfl <;> decide
            · by_cases h3 : b = '\n'
              · simp [h1, h2, h2b, h3] at h
                rcases h with rfl | rfl <;> decide
              · by_cases h4 : b = '\r'
                · simp [h1, h2, h2b, h3, h4] at h
                  rcases h with rfl | rfl <;> decide
                · by_cases h5 : b = '\t'
                  · simp [h1, h2, h2b, h3, h4, h5] at h
                    rcases h with rfl | rfl <;> decide
                  · simp [h1, h2, h2b, h3, h4, h5] at h
                    subst h
                    exact h4
    · exact ih c h

/-- Rendered string literals contain no carriage return. -/
theorem noCR_strRepr (sdata : List Char) : ∀ c ∈ strRepr sdata, c ≠ '\r' := by
  intro c hc
  unfold strRepr at hc
  by_cases hq : sdata.contains '\'' && !sdata.contains '"'
  · rw [if_pos hq] at hc
    rcases List.mem_cons.1 hc with rfl | h
    · decide
    · rcases List.mem_append.1 h with h2 | h2
      · exact noCR_escapeChars '"' (Or.inr rfl) sdata c h2
      · simp at h2; subst h2; decide
  · rw [if_neg hq] at hc
    rcases List.mem_cons.1 hc with rfl | h
    · decide
    · rcases List.mem_append.1 h with h2 | h2
      · exact noCR_escapeChars '\'' (Or.inl rfl) sdata c h2
      · simp at h2; subst h2; decide

/-- Rendered argument lists contain no carriage return. -/
theorem noCR_argsJoinChars : ∀ (as : List Int), ∀ c ∈ argsJoinChars as, c ≠ '\r' := by
  intro as
  induction as with
  | nil => intro c hc; simp [argsJoinChars] at hc
  | cons i as ih =>
    intro c hc
    cases as with
    | nil => exact noCR_intToChars i c hc
    | cons j as' =>
      rw [show argsJoinChars (i :: j :: as')
            = intToChars i ++ ", ".data ++ argsJoinChars (j :: as') from rfl] at hc
      rcases List.mem_append.1 hc with h | h
      · rcases List.mem_append.1 h with h2 | h2
        · exact noCR_intToChars i c h2
        · simp at h2
          rcases h2 with rfl | rfl <;> decide
      · exact ih c h

/-- Rendered element lists contain no carriage return, given the property
for each element. -/
theorem noCR_reprListChars : ∀ (ys : List Value),
    (∀ y ∈ ys, ∀ c ∈ reprChars y, c ≠ '\r') →
    ∀ c ∈ reprListChars ys, c ≠ '\r' := by
  intro ys
  induction ys with
  | nil => intro _ c hc; simp [reprListChars] at hc
  | cons x ys ih =>
    intro helem c hc
    have hx := helem x (List.mem_cons_self x ys)
    have hys := fun y hy => helem y (List.mem_cons_of_mem x hy)
    cases ys with
    | nil => exact hx c hc
    | cons y ys' =>
      rw [show reprListChars (x :: y :: ys')
            = reprChars x ++ ", ".data ++ reprListChars (y :: ys') from rfl] at hc
      rcases List.mem_append.1 hc with h | h
      · rcases List.mem_append.1 h with h2 | h2
        · exact hx c h2
        · simp at h2
          rcases h2 with rfl | rfl <;> decide
      · exact ih hys c h

/-- Rendered dict bodies contain no carriage return, given the property for
each key and value. -/
theorem noCR_reprPairsChars : ∀ (ps : List (Value × Value)),
    (∀ kv ∈ ps, ∀ y ∈ [kv.1, kv.2], ∀ c ∈ reprChars y, c ≠ '\r') →
    ∀ c ∈ reprPairsChars ps, c ≠ '\r' := by
  intro ps
  induction ps with
  | nil => intro _ c hc; simp [reprPairsChars] at hc
  | cons kv ps ih =>
    obtain ⟨k, v⟩ := kv
    intro helem c hc
    have hk := helem (k, v) (List.mem_cons_self _ _) k (by simp)
    have hv := helem (k, v) (List.mem_cons_self _ _) v (by simp)
    have hps := fun kv hkv => helem kv (List.mem_cons_of_mem _ hkv)
    cases ps with
    | nil =>
      rw [show reprPairsChars [(k, v)]
            = reprChars k ++ ": ".data ++ reprChars v from rfl] at hc
      rcases List.mem_append.1 hc with h | h
      · rcases List.mem_append.1 h with h2 | h2
        · exact hk c h2
        · simp at h2
          rcases h2 with rfl | rfl <;> decide
      · exact hv c h
    | cons kv2 ps' =>
      rw [show reprPairsChars ((k, v) :: kv2 :: ps')
            = reprChars k ++ ": ".data ++ reprChars v ++ ", ".data
                ++ reprPairsChars (kv2 :: ps') from rfl] at hc
      rcases List.mem_append.1 hc with h | h
      · rcases List.mem_append.1 h with h2 | h2
        · rcases List.mem_append.1 h2 with h3 | h3
          · rcases List.mem_append.1 h3 with h4 | h4
            · exact hk c h4
            · simp at h4
              rcases h4 with rfl | rfl <;> decide
          · exact hv c h3
        · simp at h2
          rcases h2 with rfl | rfl <;> decide
      · exact ih hps c h

/-- Rendered values contain no carriage return. -/
theorem noCR_reprChars : ∀ (v : Value), ∀ c ∈ reprChars v, c ≠ '\r' := by
  apply value_strong_ind (P := fun v => ∀ c ∈ reprChars v, c ≠ '\r')
  intro v IH c hc
  cases v with
  | none => simp [reprChars] at hc; rcases hc with rfl | rfl | rfl | rfl <;> decide
  | bool b =>
    cases b <;> simp [reprChars] at hc
    · rcases hc with rfl | rfl | rfl | rfl | rfl <;> decide
    · rcases hc with rfl | rfl | rfl | rfl <;> decide
  | int n => exact noCR_intToChars n c hc
  | float m e =>
    by_cases hm0 : m < 0
    · rw [show reprChars (.float m e)
          = '-' :: floatCharsAbs m.natAbs e by simp [reprChars, hm0]] at hc
      rcases List.mem_cons.1 hc with rfl | h
      · decide
      · exact noCR_floatCharsAbs _ _ c h
    · rw [show reprChars (.float m e)
          = floatCharsAbs m.natAbs e by simp [reprChars, hm0]] at hc
      exact noCR_floatCharsAbs _ _ c hc
  | str s => exact noCR_strRepr s.data c hc
  | list xs =>
    have helem : ∀ y ∈ xs, ∀ c ∈ reprChars y, c ≠ '\r' := by
      intro y hy
      refine IH y ?_
      have h1 := List.sizeOf_lt_of_mem hy
      simp only [Value.list.sizeOf_spec]
      omega
    rw [show reprChars (.list xs) = '[' :: reprListChars xs ++ [']'] from rfl] at hc
    rcases List.mem_cons.1 hc with rfl | h
    · decide
    · rcases List.mem_append.1 h with h2 | h2
      · exact noCR_reprListChars xs helem c h2
      · simp at h2; subst h2; decide
  | tuple xs =>
    have helem : ∀ y ∈ xs, ∀ c ∈ reprChars y, c ≠ '\r' := by
      intro y hy
      refine IH y ?_
      have h1 := List.sizeOf_lt_of_mem hy
      simp only [Value.tuple.sizeOf_spec]
      omega
    cases xs with
    | nil => simp [reprChars] at hc; rcases hc with rfl | rfl <;> decide
    | cons x xs' =>
      cases xs' with
      | nil =>
        rw [show reprChars (.tuple [x])
              = '(' :: reprChars x ++ [',', ')'] from rfl] at hc
        rcases List.mem_cons.1 hc with rfl | h
        · decide
        · rcases List.mem_append.1 h with h2 | h2
          · exact helem x (List.mem_cons_self x []) c h2
          · simp at h2; rcases h2 with rfl | rfl <;> decide
      | cons y ys =>
        rw [show reprChars (.tuple (x :: y :: ys))
              = '(' :: reprListChars (x :: y :: ys) ++ [')'] from rfl] at hc
        rcases List.mem_cons.1 hc with rfl | h
        · decide
        · rcases List.mem_append.1 h with h2 | h2
          · exact noCR_reprListChars _ helem c h2
          · simp at h2; subst h2; decide
  | dict ps =>
    have helem : ∀ kv ∈ ps, ∀ y ∈ [kv.1, kv.2], ∀ c ∈ reprChars y, c ≠ '\r' := by
      intro kv hkv y hy
      refine IH y ?_
      have h1 := List.sizeOf_lt_of_mem hkv
      obtain ⟨k', v'⟩ := kv
      simp only [Prod.mk.sizeOf_spec] at h1
      simp only [Value.dict.sizeOf_spec]
      simp at hy
      rcases hy with rfl | rfl <;> omega
    rw [show reprChars (.dict ps)
          = '\x7b' :: reprPairsChars ps ++ ['\x7d'] from rfl] at hc
    rcases List.mem_cons.1 hc with rfl | h
    · decide
    · rcases List.mem_append.1 h with h2 | h2
      · exact noCR_reprPairsChars ps helem c h2
      · simp at h2; subst h2; decide
  | datetime y mo d h mi s us =>
    rw [show reprChars (.datetime y mo d h mi s us)
          = "datetime.datetime(".data
              ++ argsJoinChars (dtArgs y mo d h mi s us) ++ [')'] from rfl] at hc
    rcases List.mem_append.1 hc with h2 | h2
    · rcases List.mem_append.1 h2 with h3 | h3
      · intro heq; subst heq; revert h3; decide
      · exact noCR_argsJoinChars _ c h3
    · simp at h2; subst h2; decide
  | timedelta d s us =>
    rw [show reprChars (.timedelta d s us)
          = "datetime.timedelta(".data
              ++ argsJoinChars (tdArgs d s us) ++ [')'] from rfl] at hc
    rcases List.mem_append.1 hc with h2 | h2
    · rcases List.mem_append.1 h2 with h3 | h3
      · intro heq; subst heq; revert h3; decide
      · exact noCR_argsJoinChars _ c h3
    · simp at h2; subst h2; decide
  | callable c' =>
    rw [show reprChars (.callable c') = "<callable>".data from rfl] at hc
    intro heq; subst heq; revert hc; decide

/-- Composition of the three pillars: rendering a producible value and
running it through `data_eval` returns exactly that value. -/
theorem data_eval_repr : ∀ (v : Value), producible v = true →
    data_eval (.str (String.mk (reprChars v))) = .ok v := by
  intro v hp
  have hnorm : normNL (reprChars v) = reprChars v :=
    normNL_id _ (noCR_reprChars v)
  have hlex : lexGo (reprChars v ++ []) .ready
      = prependToks (toksOf v) (lexGo [] .ready) := lex_repr v hp [] (by rfl)
  rw [List.append_nil] at hlex
  have htok : tokenize (reprChars v) = .ok (toksOf v) := by
    rw [tokenize, hlex]
    show prependToks (toksOf v) (.ok []) = .ok (toksOf v)
    simp [prependToks]
  have hparse : runFrom ⟨.expecting, []⟩ (toksOf v ++ [])
      = runFrom ⟨.haveNode (astOf v), []⟩ [] := parse_repr v hp [] [] rfl rfl
  rw [List.append_nil] at hparse
  have hfin : runFrom ⟨.haveNode (astOf v), []⟩ [] = .ok (astOf v) := by
    show finish ⟨.haveNode (astOf v), []⟩ = .ok (astOf v)
    show (match reduceUn (astOf v) [] with
      | (n', []) => Except.ok n'
      | _ => Except.error "unexpected EOF") = .ok (astOf v)
    rw [reduceUn_neutral [] rfl]
  have hPT : parseToks (toksOf v) = .ok (astOf v) := by
    rw [parseToks, hparse, hfin]
  have hP : parse (reprChars v) = .ok (.expression (astOf v)) := by
    rw [parse]
    show (do return Node.expression (← parseToks (← tokenize (reprChars v))))
        = Except.ok (.expression (astOf v))
    rw [htok]
    show (do return Node.expression (← parseToks (toksOf v))) = _
    rw [hPT]
    rfl
  show (match parse (normNL (String.mk (reprChars v)).data) with
    | .error m => Except.error (Err.evalSyntaxError m)
    | .ok ast => SafeEval.visit ast) = .ok v
  rw [show (String.mk (reprChars v)).data = reprChars v from rfl, hnorm, hP]
  show SafeEval.visit (.expression (astOf v)) = .ok v
  rw [show SafeEval.visit (.expression (astOf v)) = SafeEval.visit (astOf v) from rfl]
  exact eval_repr v hp

/-- C5: for every Value producible by the literal grammar, rendering it to
its textual form and evaluating that text with `data_eval` yields an equal
Value; concretely, "None" evaluates to the null value, "True"/"TRUE"/"true"
to the true boolean, "-2.02" to the float -2.02 (mantissa -202, scale 2),
"(1, 2)" to the pair of integers 1 and 2, and the map literal with keys
"a" and 1 to the corresponding two-entry map. -/
theorem c5_roundtrip :
    (∀ v : Value, producible v = true →
      data_eval (.str (String.mk (reprChars v))) = .ok v)
    ∧ data_eval (.str "None") = .ok .none
    ∧ data_eval (.str "True") = .ok (.bool true)
    ∧ data_eval (.str "TRUE") = .ok (.bool true)
    ∧ data_eval (.str "true") = .ok (.bool true)
    ∧ data_eval (.str "-2.02") = .ok (.float (-202) 2)
    ∧ data_eval (.str "(1, 2)") = .ok (.tuple [.int 1, .int 2])
    ∧ data_eval (.str "\x7b\"a\": \"b\", 1: True\x7d")
        = .ok (.dict [(.str "a", .str "b"), (.int 1, .bool true)]) :=
  ⟨data_eval_repr, rfl, rfl, rfl, rfl, rfl, rfl, rfl⟩

/-- Witness for C5: the round-trip clause instantiated at a concrete
producible value. -/
theorem c5_roundtrip_witness :
    producible (.dict [(.str "dt", .datetime 2024 2 29 13 5 0 250000)]) = true
    ∧ data_eval (.str (String.mk (reprChars
        (.dict [(.str "dt", .datetime 2024 2 29 13 5 0 250000)]))))
        = .ok (.dict [(.str "dt", .datetime 2024 2 29 13 5 0 250000)]) :=
  ⟨by rfl, c5_roundtrip.1 _ (by rfl)⟩

/-- The whitelist hits exactly the names `datetime` and `timedelta`. -/
theorem allowed_lookup_isSome (attr : String)
    (h : (ALLOWED_CALLABLES.lookup attr).isSome) :
    attr = "datetime" ∨ attr = "timedelta" := by
  by_cases h1 : attr = "datetime"
  · exact Or.inl h1
  · by_cases h2 : attr = "timedelta"
    · exact Or.inr h2
    · simp [ALLOWED_CALLABLES, List.lookup,
        show (attr == "datetime") = false by simp [h1],
        show (attr == "timedelta") = false by simp [h2]] at h

/-- Any other attribute name misses the whitelist. -/
theorem allowed_lookup_none (attr : String)
    (h1 : attr ≠ "datetime") (h2 : attr ≠ "timedelta") :
    ALLOWED_CALLABLES.lookup attr = Option.none := by
  simp [ALLOWED_CALLABLES, List.lookup,
    show (attr == "datetime") = false by simp [h1],
    show (attr == "timedelta") = false by simp [h2]]

/-- C1 counterexample: the bare call `datetime(2024, 1, 1)` does not
succeed — the callee is a bare `Name` node, `visitName` finds `datetime`
neither in `NAME_MAP` nor anywhere else, and evaluation fails with
`UnsafeSourceError("Strings must be quoted", "datetime")`. -/
theorem c1_counterexample :
    data_eval (.str "datetime(2024, 1, 1)") =
      .error (.unsafeSource "Strings must be quoted" "datetime") := rfl

/-- C1 amended: the attribute-form call `datetime.datetime(2024, 1, 1)`
evaluates to the corresponding datetime value; in general, for a call whose
callee is an attribute access with a whitelisted attribute name, the callee
resolves to the whitelisted constructor, the arguments are evaluated left to
right (the first failing argument aborts the rest), and the constructor is
invoked on the argument values. -/
theorem c1_whitelisted_call :
    data_eval (.str "datetime.datetime(2024, 1, 1)") = .ok (.datetime 2024 1 1 0 0 0 0)
    ∧ (∀ base attr args, (ALLOWED_CALLABLES.lookup attr).isSome →
        SafeEval.visit (.callFunc (.getattr base attr) args) =
          (SafeEval.visitList args).bind
            (applyCallable (.callable
              (if attr = "datetime" then .datetime else .timedelta))))
    ∧ (∀ a rest e, SafeEval.visit a = .error e →
        SafeEval.visitList (a :: rest) = .error e)
    ∧ (∀ a rest v, SafeEval.visit a = .ok v →
        SafeEval.visitList (a :: rest) = (SafeEval.visitList rest).map (v :: ·)) := by
  refine ⟨rfl, ?_, ?_, ?_⟩
  · intro base attr args h
    rcases allowed_lookup_isSome attr h with h' | h' <;> subst h' <;>
      simp [SafeEval.visit, SafeEval.visitGetattr, ALLOWED_CALLABLES, List.lookup] <;>
      cases hv : SafeEval.visitList args <;> simp [Except.bind, hv]
  · intro a rest e h
    simp [SafeEval.visitList, h]
  · intro a rest v h
    simp only [SafeEval.visitList, h]
    cases SafeEval.visitList rest <;> simp [Except.map]

/-- C1 witness: the general clauses of `c1_whitelisted_call` applied at the
concrete call `datetime.datetime(2024, 1, 1)` and at concrete argument
lists. -/
theorem c1_whitelisted_call_witness :
    ((ALLOWED_CALLABLES.lookup "datetime").isSome = true
      ∧ SafeEval.visit (.callFunc (.getattr (.name "datetime") "datetime")
          [.const (.cint 2024), .const (.cint 1), .const (.cint 1)]) =
        (SafeEval.visitList [.const (.cint 2024), .const (.cint 1), .const (.cint 1)]).bind
          (applyCallable (.callable
            (if "datetime" = "datetime" then .datetime else .timedelta))))
    ∧ (SafeEval.visit (.name "a") = .error (.unsafeSource "Strings must be quoted" "a")
      ∧ SafeEval.visitList [.name "a", .const (.cint 1)] =
          .error (.unsafeSource "Strings must be quoted" "a"))
    ∧ (SafeEval.visit (.const (.cint 1)) = .ok (.int 1)
      ∧ SafeEval.visitList [.const (.cint 1), .name "a"] =
          (SafeEval.visitList [.name "a"]).map (Value.int 1 :: ·)) :=
  ⟨⟨rfl, c1_whitelisted_call.2.1 (.name "datetime") "datetime" _ rfl⟩,
   ⟨rfl, c1_whitelisted_call.2.2.1 _ _ _ rfl⟩,
   ⟨rfl, c1_whitelisted_call.2.2.2 _ _ _ rfl⟩⟩

/-- C2 counterexample: an identifier followed by attribute access is not a
syntax error — `datetime.datetime(2024, 1, 1)` parses and evaluates
successfully (the repository's own `testDatetime` relies on this). -/
theorem c2_counterexample :
    data_eval (.str "datetime.datetime(2024, 1, 1)") =
      .ok (.datetime 2024 1 1 0 0 0 0) := rfl

/-- C2 amended: attribute access and subscripting after an identifier are
accepted by the parser and handled by the evaluator: attribute access with a
non-whitelisted name fails with `UnsafeSourceError("Callable not allowed.")`,
subscripting fails with `UnsafeSourceError("Unsupported source construct")`
— both `UnsafeSourceError`, not `EvalSyntaxError`. -/
theorem c2_identifier_trailers :
    (∀ base attr, ALLOWED_CALLABLES.lookup attr = Option.none →
        SafeEval.visit (.getattr base attr) =
          .error (.unsafeSource "Callable not allowed." attr))
    ∧ (∀ base subs, SafeEval.visit (.subscript base subs) =
        .error (.unsafeSource "Unsupported source construct" "Subscript"))
    ∧ data_eval (.str "a.foo") = .error (.unsafeSource "Callable not allowed." "foo")
    ∧ data_eval (.str "a[0]") =
        .error (.unsafeSource "Unsupported source construct" "Subscript") := by
  refine ⟨?_, ?_, rfl, rfl⟩
  · intro base attr h
    simp [SafeEval.visit, SafeEval.visitGetattr, h]
  · intro base subs
    simp [SafeEval.visit, SafeEval.unsupported]

/-- C2 witness: `c2_identifier_trailers` applied at the attribute name
`foo`, which misses the whitelist. -/
theorem c2_identifier_trailers_witness :
    ALLOWED_CALLABLES.lookup "foo" = Option.none
    ∧ SafeEval.visit (.getattr (.name "a") "foo") =
        .error (.unsafeSource "Callable not allowed." "foo") :=
  ⟨rfl, c2_identifier_trailers.1 (.name "a") "foo" rfl⟩

/-- C3: a bare identifier is matched case-insensitively against
`none`/`true`/`false`; any other bare identifier (e.g. the input `a`) fails
with `UnsafeSourceError("Strings must be quoted", identifier)` — never
treated as a variable reference or implicit string. -/
theorem c3_bare_identifiers :
    (∀ s, strLower s = "none" → SafeEval.visit (.name s) = .ok .none)
    ∧ (∀ s, strLower s = "true" → SafeEval.visit (.name s) = .ok (.bool true))
    ∧ (∀ s, strLower s = "false" → SafeEval.visit (.name s) = .ok (.bool false))
    ∧ (∀ s, strLower s ≠ "none" → strLower s ≠ "true" → strLower s ≠ "false" →
        SafeEval.visit (.name s) = .error (.unsafeSource "Strings must be quoted" s))
    ∧ data_eval (.str "a") = .error (.unsafeSource "Strings must be quoted" "a") := by
  refine ⟨?_, ?_, ?_, ?_, rfl⟩
  · intro s h; simp [SafeEval.visit, SafeEval.visitName, NAME_MAP, List.lookup, h]
  · intro s h; simp [SafeEval.visit, SafeEval.visitName, NAME_MAP, List.lookup, h]
  · intro s h; simp [SafeEval.visit, SafeEval.visitName, NAME_MAP, List.lookup, h]
  · intro s h1 h2 h3
    simp [SafeEval.visit, SafeEval.visitName, NAME_MAP, List.lookup,
      show (strLower s == "none") = false by simp [h1],
      show (strLower s == "true") = false by simp [h2],
      show (strLower s == "false") = false by simp [h3]]

/-- C3 witness: `c3_bare_identifiers` applied at the identifiers `TRUE`
(case-insensitive keyword hit) and `a` (rejected bare word). -/
theorem c3_bare_identifiers_witness :
    (strLower "TRUE" = "true" ∧ SafeEval.visit (.name "TRUE") = .ok (.bool true))
    ∧ (strLower "a" ≠ "none" ∧ strLower "a" ≠ "true" ∧ strLower "a" ≠ "false"
      ∧ SafeEval.visit (.name "a") = .error (.unsafeSource "Strings must be quoted" "a")) :=
  ⟨⟨rfl, c3_bare_identifiers.2.1 "TRUE" rfl⟩,
   ⟨by decide, by decide, by decide,
    c3_bare_identifiers.2.2.2.1 "a" (by decide) (by decide) (by decide)⟩⟩

/-- C4: `a+2` and `eval()` fail with `UnsafeSourceError`; every node class
outside the supported set fails with
`UnsafeSourceError("Unsupported source construct")`, and a call whose callee
is a bare non-keyword identifier fails with
`UnsafeSourceError("Strings must be quoted")` before anything is invoked. -/
theorem c4_unsafe_rejection :
    data_eval (.str "a+2") = .error (.unsafeSource "Unsupported source construct" "Add")
    ∧ data_eval (.str "eval()") = .error (.unsafeSource "Strings must be quoted" "eval")
    ∧ (∀ l r, SafeEval.visit (.add l r) =
        .error (.unsafeSource "Unsupported source construct" "Add"))
    ∧ (∀ l r, SafeEval.visit (.sub l r) =
        .error (.unsafeSource "Unsupported source construct" "Sub"))
    ∧ (∀ b subs, SafeEval.visit (.subscript b subs) =
        .error (.unsafeSource "Unsupported source construct" "Subscript"))
    ∧ (∀ cn, SafeEval.visit (.other cn) =
        .error (.unsafeSource "Unsupported source construct" cn))
    ∧ (∀ callee args, strLower callee ≠ "none" → strLower callee ≠ "true" →
        strLower callee ≠ "false" →
        SafeEval.visit (.callFunc (.name callee) args) =
          .error (.unsafeSource "Strings must be quoted" callee)) := by
  refine ⟨rfl, rfl, ?_, ?_, ?_, ?_, ?_⟩
  · intro l r; simp [SafeEval.visit, SafeEval.unsupported]
  · intro l r; simp [SafeEval.visit, SafeEval.unsupported]
  · intro b subs; simp [SafeEval.visit, SafeEval.unsupported]
  · intro cn; simp [SafeEval.visit, SafeEval.unsupported]
  · intro callee args h1 h2 h3
    simp [SafeEval.visit, SafeEval.visitName, NAME_MAP, List.lookup,
      show (strLower callee == "none") = false by simp [h1],
      show (strLower callee == "true") = false by simp [h2],
      show (strLower callee == "false") = false by simp [h3]]

/-- C4 witness: `c4_unsafe_rejection` applied at the callee `eval` with an
empty argument list. -/
theorem c4_unsafe_rejection_witness :
    strLower "eval" ≠ "none" ∧ strLower "eval" ≠ "true" ∧ strLower "eval" ≠ "false"
    ∧ SafeEval.visit (.callFunc (.name "eval") []) =
        .error (.unsafeSource "Strings must be quoted" "eval") :=
  ⟨by decide, by decide, by decide,
   c4_unsafe_rejection.2.2.2.2.2.2 "eval" [] (by decide) (by decide) (by decide)⟩

/-- C6: an input that is already a dict is returned unchanged, without
lexing, parsing or evaluation. -/
theorem c6_dict_passthrough : ∀ d, data_eval (.dict d) = .ok (.dict d) :=
  fun _ => rfl

/-- C7 counterexample: unary minus on a non-numeric literal does not fail
with `UnsafeSourceError` — `-'a'` raises a raw host `TypeError` instead
(`visitUnarySub` has no guard around `- number`). -/
theorem c7_counterexample :
    data_eval (.str "-'a'") = .error (.hostError "TypeError" "bad operand type for unary -") := rfl

/-- C7 amended: unary minus on an integer or float literal yields its
arithmetic negation; on a string constant it raises a raw host `TypeError`,
and on any non-constant operand a raw host `AttributeError` (from the
direct `visitConst` call on the child) — in neither failure case an
`UnsafeSourceError`. -/
theorem c7_unary_minus :
    (∀ n, SafeEval.visit (.unarySub (.const (.cint n))) = .ok (.int (-(n : Int))))
    ∧ (∀ m e, SafeEval.visit (.unarySub (.const (.cfloat m e))) =
        .ok (.float (-(m : Int)) e))
    ∧ (∀ s, SafeEval.visit (.unarySub (.const (.cstr s))) =
        .error (.hostError "TypeError" "bad operand type for unary -"))
    ∧ (∀ c, (∀ cv, c ≠ .const cv) →
        SafeEval.visit (.unarySub c) =
          .error (.hostError "AttributeError" "node has no attribute value")) := by
  refine ⟨?_, ?_, ?_, ?_⟩
  · intro n; simp [SafeEval.visit, constValueOf, pyNeg]
  · intro m e; simp [SafeEval.visit, constValueOf, pyNeg]
  · intro s; simp [SafeEval.visit, constValueOf, pyNeg]
  · intro c h
    cases c <;> simp [SafeEval.visit, constValueOf]
    exact absurd rfl (h _)

/-- C7 witness: `c7_unary_minus` applied at the non-constant operand `[]`
(so `- []` is the source input, a `UnarySub` over a `List` node). -/
theorem c7_unary_minus_witness :
    (∀ cv, Node.list [] ≠ .const cv)
    ∧ SafeEval.visit (.unarySub (.list [])) =
        .error (.hostError "AttributeError" "node has no attribute value") :=
  ⟨fun _ h => Node.noConfusion h,
   c7_unary_minus.2.2.2 (.list []) (fun _ h => Node.noConfusion h)⟩

/-- C8 counterexample: a whitelisted constructor rejecting its arguments
(month 13) escapes as a raw host `ValueError`, which is not part of the
`DataEvalError` taxonomy — `visitCallFunc` wraps nothing. -/
theorem c8_counterexample :
    data_eval (.str "datetime.datetime(2024, 13, 1)") =
      .error (.hostError "ValueError" "argument out of range")
    ∧ Err.isDataEvalError (.hostError "ValueError" "argument out of range") = false :=
  ⟨rfl, rfl⟩

/-- C8 amended: when a whitelisted constructor rejects its arguments, the
raw host exception (`ValueError`) propagates to the caller unwrapped; host
errors are not instances of the `DataEvalError` hierarchy. -/
theorem c8_construction_failure :
    (∀ base (y mo d : Nat), validDatetime y mo d 0 0 0 0 = false →
      SafeEval.visit (.callFunc (.getattr base "datetime")
          [.const (.cint y), .const (.cint mo), .const (.cint d)]) =
        .error (.hostError "ValueError" "argument out of range"))
    ∧ (∀ exc msg, (Err.hostError exc msg).isDataEvalError = false) := by
  constructor
  · intro base y mo d h
    simp [SafeEval.visit, SafeEval.visitGetattr, SafeEval.visitList,
      ALLOWED_CALLABLES, List.lookup, applyCallable, pyDatetimeCtor,
      pyDatetimeCtor.mk, asPyInt, constToValue, List.mapM, List.mapM.loop, h]
  · intro exc msg; rfl

/-- C8 witness: `c8_construction_failure` applied at the invalid date
`(2024, 13, 1)`. -/
theorem c8_construction_failure_witness :
    validDatetime 2024 13 1 0 0 0 0 = false
    ∧ SafeEval.visit (.callFunc (.getattr (.name "datetime") "datetime")
        [.const (.cint 2024), .const (.cint 13), .const (.cint 1)]) =
      .error (.hostError "ValueError" "argument out of range") :=
  ⟨rfl, c8_construction_failure.1 (.name "datetime") 2024 13 1 rfl⟩

/-- C9: a source that is neither a string nor a dict (e.g. the integer `1`)
is rejected with the bare `DataEvalError` (the spec's `InvalidInputType`),
which is distinct from the `EvalSyntaxError` and `UnsafeSourceError`
subclasses. -/
theorem c9_invalid_input_type :
    data_eval (.intSource 1) = .error (.dataEvalError "source must be string/unicode!")
    ∧ (∀ n, data_eval (.intSource n) =
        .error (.dataEvalError "source must be string/unicode!"))
    ∧ (∀ t, data_eval (.other t) =
        .error (.dataEvalError "source must be string/unicode!"))
    ∧ (∀ msg m, Err.dataEvalError msg ≠ Err.evalSyntaxError m)
    ∧ (∀ msg e dsc, Err.dataEvalError msg ≠ Err.unsafeSource e dsc) := by
  refine ⟨rfl, fun _ => rfl, fun _ => rfl, ?_, ?_⟩
  · intro msg m h; cases h
  · intro msg e dsc h; cases h

/-- C10: `visitGetattr` never inspects the base expression: the result of an
attribute access depends only on the attribute name; `.datetime` and
`.timedelta` yield the corresponding constructors for every base, and any
other attribute name fails with `UnsafeSourceError("Callable not allowed.")`
without the base ever being visited. -/
theorem c10_getattr_ignores_base :
    (∀ b1 b2 attr, SafeEval.visit (.getattr b1 attr) = SafeEval.visit (.getattr b2 attr))
    ∧ (∀ b, SafeEval.visit (.getattr b "datetime") = .ok (.callable .datetime))
    ∧ (∀ b, SafeEval.visit (.getattr b "timedelta") = .ok (.callable .timedelta))
    ∧ (∀ b attr, ALLOWED_CALLABLES.lookup attr = Option.none →
        SafeEval.visit (.getattr b attr) =
          .error (.unsafeSource "Callable not allowed." attr)) := by
  refine ⟨?_, ?_, ?_, ?_⟩
  · intro b1 b2 attr; simp [SafeEval.visit]
  · intro b; rfl
  · intro b; rfl
  · intro b attr h; simp [SafeEval.visit, SafeEval.visitGetattr, h]

/-- C10 witness: `c10_getattr_ignores_base` applied at the non-whitelisted
attribute name `eval` over the base `datetime`. -/
theorem c10_getattr_ignores_base_witness :
    ALLOWED_CALLABLES.lookup "eval" = Option.none
    ∧ SafeEval.visit (.getattr (.name "datetime") "eval") =
        .error (.unsafeSource "Callable not allowed." "eval") :=
  ⟨rfl, c10_getattr_ignores_base.2.2.2 (.name "datetime") "eval" rfl⟩

/-- C9 witness: `c9_invalid_input_type` applied at the integer source `1`
and at concrete error payloads. -/
theorem c9_invalid_input_type_witness :
    data_eval (.intSource 1) = .error (.dataEvalError "source must be string/unicode!")
    ∧ Err.dataEvalError "source must be string/unicode!"
        ≠ Err.evalSyntaxError "unexpected EOF"
    ∧ Err.dataEvalError "source must be string/unicode!"
        ≠ Err.unsafeSource "Strings must be quoted" "a" :=
  ⟨c9_invalid_input_type.1,
   c9_invalid_input_type.2.2.2.1 _ _,
   c9_invalid_input_type.2.2.2.2 _ _ _⟩
